import Mathlib

/-!
# pixelDrawer: rasteriser and frame loop

A shallow embedding of `src/pixelDrawer.c`: the two rasterisers `drawCircle` and
`drawTriangle`, and one iteration of the main loop of `WinMain`.

Modelling conventions.

* C `int` values are `Int`; the arithmetic is assumed not to overflow (the frame
  dimensions come from `LOWORD`/`HIWORD`, so they lie in `0 .. 65535`).
  C's `/` and `%` are `Int.tdiv` and `Int.tmod` (truncation toward zero).
* `frame.pixels` is a `List Nat` of `uint32_t` values, row-major.
* Control flow of the rasterisers never reads a pixel, so every routine is split
  in two: the sequence of stores it performs (`...Writes`, a `List Write`), and
  the execution of that sequence on the pixel array (`runWrites`).  A store whose
  index is outside the array has no defined behaviour in C; `runWrites` then
  returns `none`.
* `int y = sqrt(n)` converts `n` to `double`, takes the correctly rounded square
  root and truncates.  For `0 ≤ n < 2^31` that is the integer square root
  `csqrt n`.  `int y = -sqrt(n)` truncates the negated root toward zero, which
  is `-csqrt n`.
* The shifts and sums of the macro `Rand32()` are checked `int` operations
  (`int32`): a signed overflow has no defined value.  In the main loop the values
  of `Rand32()` are the parameter `rnd`.
-/

namespace PixelDrawer

/-! ## Data model -/

/-- The global `frame`: dimensions and the pixel array. -/
structure Frame where
  width : Int
  height : Int
  pixels : List Nat
deriving DecidableEq

/-- One store `frame.pixels[idx] = color`.  `x` and `y` are the pixel
coordinates the store is aimed at (the coordinates tested by the guard, or
spelled out in the index expression). -/
structure Write where
  x : Int
  y : Int
  idx : Int
  color : Nat
deriving DecidableEq

/-- Colour `0x00FF0000`. -/
def red : Nat := 0x00FF0000
/-- Colour `0x0000FF00`. -/
def green : Nat := 0x0000FF00
/-- Colour `0x000000FF`. -/
def blue : Nat := 0x000000FF
/-- Colour `0x00FFFFFF`. -/
def white : Nat := 0x00FFFFFF

/-- Largest `m ≤ k` with `m * m ≤ n` (and `0` if there is none but `0`). -/
def sqrtLoop : Nat → Nat → Nat
  | 0, _ => 0
  | k + 1, n => if (k + 1) * (k + 1) ≤ n then k + 1 else sqrtLoop k n

/-- The value of `(int)sqrt(n)` for an `int` argument `n ≥ 0`: the integer
square root.  (For `n < 0` the C expression has no defined value; the loops of
`drawCircle` never produce such an argument.) -/
def csqrt (n : Int) : Int := (sqrtLoop n.toNat n.toNat : Nat)

/-- A counting loop: `n` iterations with the loop variable starting at `i` and
incremented after each one; the stores of the iterations in order. -/
def forUp {α : Type} : Nat → Int → (Int → List α) → List α
  | 0, _, _ => []
  | n + 1, i, body => body i ++ forUp n (i + 1) body

/-- A counting loop with the loop variable decremented after each iteration. -/
def forDown {α : Type} : Nat → Int → (Int → List α) → List α
  | 0, _, _ => []
  | n + 1, i, body => body i ++ forDown n (i - 1) body

/-- The pattern
`if (gx >= 0 && gx < frame.width && gy >= 0 && gy < frame.height) frame.pixels[idx] = c;`. -/
def store (w h gx gy idx : Int) (c : Nat) : List Write :=
  if gx ≥ 0 ∧ gx < w ∧ gy ≥ 0 ∧ gy < h then [⟨gx, gy, idx, c⟩] else []

/-! ## drawCircle -/

/-- The centre mark of `drawCircle`: five stores behind one guard on the centre. -/
def markCenter (w h cx cy : Int) : List Write :=
  if cx > 0 ∧ cx < w ∧ cy > 0 ∧ cy < h then
    [ ⟨cx, cy, cx + cy * w, red⟩,
      ⟨cx - 1, cy, cx + cy * w - 1, green⟩,
      ⟨cx + 1, cy, cx + cy * w + 1, green⟩,
      ⟨cx, cy - 1, cx + (cy - 1) * w, green⟩,
      ⟨cx, cy + 1, cx + (cy + 1) * w, green⟩ ]
  else []

/-- The perimeter store of one column and the two blue stores nested inside its
guard. -/
def perimeter (w h cx cy x y : Int) : List Write :=
  if cx + x ≥ 0 ∧ cx + x < w ∧ cy + y ≥ 0 ∧ cy + y < h then
    ⟨cx + x, cy + y, (cx + x) + (cy + y) * w, white⟩ ::
      (store w h (cx + x) (cy + y - 1) ((cx + x) + (cy + y - 1) * w) blue ++
       store w h (cx + x) (cy + y + 1) ((cx + x) + (cy + y + 1) * w) blue)
  else []

/-- The guarded green store of the gap-fill loops. -/
def gapStore (w h cx cy x i : Int) : List Write :=
  store w h (cx + x) (cy + i) ((cx + x) + (cy + i) * w) green

/-- The gap-fill part of the body of the first loop of `drawCircle`, for column
offset `x` whose perimeter row offset is `y`: `for (i = y; i < next_y; i++)` when
`x < 0`, `for (i = y; i < prev_y; i++)` when `x > 0`. -/
def upperGap (w h cx cy r x y : Int) : List Write :=
  if x < 0 then
    let next_y := csqrt (r * r - (x + 1) * (x + 1))
    forUp (next_y - y).toNat y (gapStore w h cx cy x)
  else if x > 0 then
    let prev_y := csqrt (r * r - (x - 1) * (x - 1))
    forUp (prev_y - y).toNat y (gapStore w h cx cy x)
  else []

/-- Body of the first loop of `drawCircle` (upper semicircle) for column offset `x`. -/
def upperColumn (w h cx cy r x : Int) : List Write :=
  let y := csqrt (r * r - x * x)
  perimeter w h cx cy x y ++ upperGap w h cx cy r x y

/-- The gap-fill part of the body of the second loop of `drawCircle`:
`for (i = y; i > next_y; i--)` when `x < 0`, `for (i = y; i > prev_y; i--)` when
`x > 0`. -/
def lowerGap (w h cx cy r x y : Int) : List Write :=
  if x < 0 then
    let next_y := -csqrt (r * r - (x + 1) * (x + 1))
    forDown (y - next_y).toNat y (gapStore w h cx cy x)
  else if x > 0 then
    let prev_y := -csqrt (r * r - (x - 1) * (x - 1))
    forDown (y - prev_y).toNat y (gapStore w h cx cy x)
  else []

/-- Body of the second loop of `drawCircle` (lower semicircle) for column offset `x`. -/
def lowerColumn (w h cx cy r x : Int) : List Write :=
  let y := -csqrt (r * r - x * x)
  perimeter w h cx cy x y ++ lowerGap w h cx cy r x y

/-- The first loop of `drawCircle`: `for (x = -r; x <= r; x++)`. -/
def upperPass (w h cx cy r : Int) : List Write :=
  forUp (r + 1 - (-r)).toNat (-r) (upperColumn w h cx cy r)

/-- The second loop of `drawCircle`. -/
def lowerPass (w h cx cy r : Int) : List Write :=
  forUp (r + 1 - (-r)).toNat (-r) (lowerColumn w h cx cy r)

/-- The stores of `drawCircle(circle_center_x, circle_center_y, circle_radius)`
on a frame of dimensions `w × h`, in program order. -/
def drawCircleWrites (w h cx cy r : Int) : List Write :=
  markCenter w h cx cy ++
    (if r ≤ 1 then [] else upperPass w h cx cy r ++ lowerPass w h cx cy r)

/-! ## drawTriangle -/

/-- The apex mark of `drawTriangle`. -/
def markTop (w h tx ty : Int) : List Write :=
  if tx > 0 ∧ tx < w ∧ ty > 0 ∧ ty < h then [⟨tx, ty, tx + ty * w, red⟩] else []

/-- The loop drawing the lower edge: `for (x = l_left_x; x <= l_left_x + side_length; x++)`. -/
def lowerEdge (w h l_left_x l_edge_y s : Int) : List Write :=
  forUp (l_left_x + s + 1 - l_left_x).toNat l_left_x
    (fun x => store w h x l_edge_y (x + l_edge_y * w) white)

/-- The loop drawing the left edge: `for (x = l_left_x; x <= triangle_top_x; x++)`. -/
def leftEdge (w h l_left_x l_edge_y tx : Int) : List Write :=
  forUp (tx + 1 - l_left_x).toNat l_left_x
    (fun x => store w h x (l_edge_y + (x - l_left_x) + 1)
      (x + (l_edge_y + x - l_left_x + 1) * w) white)

/-- The loop drawing the right edge:
`for (x = triangle_top_x + 1; x <= l_left_x + side_length; x++)`. -/
def rightEdge (w h l_left_x l_edge_y tx s : Int) : List Write :=
  forUp (l_left_x + s + 1 - (tx + 1)).toNat (tx + 1)
    (fun x => store w h x (l_edge_y + (l_left_x + s - x) + 1)
      (x + (l_edge_y + l_left_x + s - x + 1) * w) white)

/-- The stores of `drawTriangle(triangle_top_x, triangle_top_y, side_length)` on
a frame of dimensions `w × h`, in program order. -/
def drawTriangleWrites (w h tx ty s : Int) : List Write :=
  markTop w h tx ty ++
    (if s ≤ 1 then []
     else
      let l_left_x := tx - s.tdiv 2
      let l_edge_y := ty - s.tdiv 2
      lowerEdge w h l_left_x l_edge_y s ++ leftEdge w h l_left_x l_edge_y tx ++
        rightEdge w h l_left_x l_edge_y tx s)

/-- The pixels the left-edge loop of `drawTriangle` aims at, before the bounds
check: `(x, l_edge_y + (x - l_left_x) + 1)` for `x = l_left_x .. triangle_top_x`. -/
def leftEdgeTargets (tx ty s : Int) : List (Int × Int) :=
  let l_left_x := tx - s.tdiv 2
  let l_edge_y := ty - s.tdiv 2
  forUp (tx + 1 - l_left_x).toNat l_left_x
    (fun x => [(x, l_edge_y + (x - l_left_x) + 1)])

/-- The pixels the right-edge loop of `drawTriangle` aims at, before the bounds
check: `(x, l_edge_y + (l_left_x + side_length - x) + 1)` for
`x = triangle_top_x + 1 .. l_left_x + side_length`. -/
def rightEdgeTargets (tx ty s : Int) : List (Int × Int) :=
  let l_left_x := tx - s.tdiv 2
  let l_edge_y := ty - s.tdiv 2
  forUp (l_left_x + s + 1 - (tx + 1)).toNat (tx + 1)
    (fun x => [(x, l_edge_y + (l_left_x + s - x) + 1)])

/-! ## Executing stores -/

/-- One store into the pixel array; `none` when the index is outside it. -/
def writePixel (pixels : List Nat) (i : Int) (c : Nat) : Option (List Nat) :=
  if 0 ≤ i ∧ i < pixels.length then some (pixels.set i.toNat c) else none

/-- Execute a sequence of stores in order. -/
def runWrites : List Write → List Nat → Option (List Nat)
  | [], p => some p
  | wr :: rest, p => (writePixel p wr.idx wr.color).bind (runWrites rest)

/-- `drawCircle` on a frame. -/
def drawCircle (f : Frame) (cx cy r : Int) : Option Frame :=
  (runWrites (drawCircleWrites f.width f.height cx cy r) f.pixels).map
    (fun p => { f with pixels := p })

/-- `drawTriangle` on a frame. -/
def drawTriangle (f : Frame) (tx ty s : Int) : Option Frame :=
  (runWrites (drawTriangleWrites f.width f.height tx ty s) f.pixels).map
    (fun p => { f with pixels := p })

/-- Value of pixel `(x, y)` of a frame, for `(x, y)` inside the frame (`0` past
the end of the array). -/
def Frame.at (f : Frame) (x y : Int) : Nat :=
  f.pixels.getD (x + y * f.width).toNat 0

/-! ## One iteration of the main loop -/

/-- The local variables of `WinMain` that persist across iterations. -/
structure Anim where
  circle_radius : Int
  circle_center_x : Int
  circle_center_y : Int
  side_length : Int
  triangle_top_x : Int
  triangle_top_y : Int
deriving DecidableEq

/-- The values of the locals when the main loop is entered, for a frame of
dimensions `w × h`. -/
def initialAnim (w h : Int) : Anim :=
  { circle_radius := 0
    circle_center_x := w.tdiv 2
    circle_center_y := h.tdiv 2
    side_length := 100
    triangle_top_x := w.tdiv 2
    triangle_top_y := h.tdiv 2 }

/-- The random-fill loop.  `rnd k` is the value of the `k`-th evaluation of
`Rand32()` in the iteration, `k` counts the evaluations made so far and the
first argument the iterations left.  Of the two evaluations in
`frame.pixels[Rand32()%(...)] = Rand32()` the index is taken first (C leaves the
order open).  The value stored is converted to `uint32_t`. -/
def randomFill (w h : Int) (rnd : Nat → Int) : Nat → Nat → List Write
  | 0, _ => []
  | n + 1, k =>
    if w * h = 0 then []
    else
      let i := (rnd k).tmod (w * h)
      ⟨i.tmod w, i.tdiv w, i, ((rnd (k + 1)) % 4294967296).toNat⟩ ::
        randomFill w h rnd n (k + 2)

/-- Number of `Rand32()` evaluations made when the apex is re-randomised. -/
def apexDraws (w h : Int) : Nat := if w = 0 ∨ h = 0 then 0 else 2

/-- All stores of one iteration of the main loop, in program order. -/
def tickWrites (w h : Int) (a : Anim) (rnd : Nat → Int) : List Write :=
  drawCircleWrites w h a.circle_center_x a.circle_center_y a.circle_radius ++
    (drawTriangleWrites w h a.triangle_top_x a.triangle_top_y a.side_length ++
      randomFill w h rnd 300 (apexDraws w h))

/-- The locals after one iteration of the main loop. -/
def advance (w h : Int) (a : Anim) (rnd : Nat → Int) : Anim :=
  let side := a.side_length + 1
  let side := if side > w ∨ side > h then 0 else side
  let top : Int × Int :=
    if w = 0 ∨ h = 0 then (0, 0) else ((rnd 0).tmod w, (rnd 1).tmod h)
  let rad := a.circle_radius + 1
  let rad := if rad > w.tdiv 3 ∨ rad > h.tdiv 3 then 0 else rad
  { circle_radius := rad
    circle_center_x := w.tdiv 2
    circle_center_y := h.tdiv 2
    side_length := side
    triangle_top_x := top.1
    triangle_top_y := top.2 }

/-- One iteration of the main loop on the current frame. -/
def tick (f : Frame) (a : Anim) (rnd : Nat → Int) : Option (Frame × Anim) :=
  (runWrites (tickWrites f.width f.height a rnd) f.pixels).map
    (fun p => ({ f with pixels := p }, advance f.width f.height a rnd))

/-- The locals after `k` iterations of the main loop at constant frame
dimensions `w × h`; `rnds j` gives the `Rand32()` values of iteration `j`. -/
def advanceN (w h : Int) (rnds : Nat → Nat → Int) : Nat → Anim → Anim
  | 0, a => a
  | k + 1, a => advance w h (advanceN w h rnds k a) (rnds k)

/-- C's `a % b`, which has no defined value when `b` is zero. -/
def cmod (a b : Int) : Option Int := if b = 0 then none else some (a.tmod b)

/-- The re-randomisation of the apex in the main loop, with its two `%`
checked: `none` if a modulo by zero is evaluated. -/
def randomizeTop (w h : Int) (rnd : Nat → Int) : Option (Int × Int) :=
  if w = 0 ∨ h = 0 then some (0, 0)
  else (cmod (rnd 0) w).bind (fun x => (cmod (rnd 1) h).map (fun y => (x, y)))

/-- The random-fill loop with its `%` checked: `none` if a modulo by zero is
evaluated, otherwise the stores of `randomFill`. -/
def randomFillChecked (w h : Int) (rnd : Nat → Int) : Nat → Nat → Option (List Write)
  | 0, _ => some []
  | n + 1, k =>
    if w * h = 0 then some []
    else
      (cmod (rnd k) (w * h)).bind (fun i =>
        (randomFillChecked w h rnd n (k + 2)).map (fun rest =>
          ⟨i.tmod w, i.tdiv w, i, ((rnd (k + 1)) % 4294967296).toNat⟩ :: rest))

/-! ## Rand32 -/

/-- `RAND_MAX` of the variant `RAND_MAX == 32767`. -/
def RAND_MAX : Nat := 32767

/-- Largest value of a 32-bit `int`. -/
def INT_MAX : Int := 2147483647

/-- Smallest value of a 32-bit `int`. -/
def INT_MIN : Int := -2147483648

/-- The result of an `int` operation whose exact value is `z`: `z` itself when
it is representable in 32 bits, no defined value when the operation overflows. -/
def int32 (z : Int) : Option Int := if INT_MIN ≤ z ∧ z ≤ INT_MAX then some z else none

/-- The macro `Rand32()` of the variant `RAND_MAX == 32767`,
`((rand() << 16) + (rand() << 1) + (rand() & 1))`, on the values `a`, `b`, `c` of
its three `rand()` calls: every shift and sum is an `int` operation. -/
def Rand32 (a b c : Nat) : Option Int :=
  (int32 ((a <<< 16 : Nat) : Int)).bind (fun hi =>
    (int32 ((b <<< 1 : Nat) : Int)).bind (fun mid =>
      (int32 (hi + mid)).bind (fun s =>
        int32 (s + ((c &&& 1 : Nat) : Int)))))

/-! ## Auxiliary notions for the statements -/

/-- The colour of the last store of a sequence that hits index `i`, if any. -/
def lastColor : List Write → Int → Option Nat
  | [], _ => none
  | wr :: rest, i =>
    (lastColor rest i).or (if wr.idx = i then some wr.color else none)

/-- A store aimed at a pixel inside the frame, at that pixel's index. -/
def Write.ok (w h : Int) (wr : Write) : Prop :=
  0 ≤ wr.x ∧ wr.x < w ∧ 0 ≤ wr.y ∧ wr.y < h ∧ wr.idx = wr.x + wr.y * w

instance (w h : Int) (wr : Write) : Decidable (wr.ok w h) := by
  unfold Write.ok; infer_instance

/-- Pixel `(px, py)` lies inside a frame of dimensions `w × h`. -/
def inFrame (w h px py : Int) : Prop := 0 ≤ px ∧ px < w ∧ 0 ≤ py ∧ py < h

instance (w h px py : Int) : Decidable (inFrame w h px py) := by
  unfold inFrame; infer_instance

/-- The gap-fill loop of column offset `x` has no iteration: the perimeter row
offset of the adjacent column (`x + 1` for `x < 0`, `x - 1` for `x > 0`) does not
exceed the one of column `x`. -/
def noGap (r x : Int) : Prop :=
  (x < 0 → csqrt (r * r - (x + 1) * (x + 1)) ≤ csqrt (r * r - x * x)) ∧
    (0 < x → csqrt (r * r - (x - 1) * (x - 1)) ≤ csqrt (r * r - x * x))

/-! ## Basic lemmas -/

theorem mem_forUp {α : Type} (a : α) (body : Int → List α) :
    ∀ (n : Nat) (i : Int), a ∈ forUp n i body ↔ ∃ k : Nat, k < n ∧ a ∈ body (i + k)
  | 0, i => by simp [forUp]
  | n + 1, i => by
    rw [forUp, List.mem_append, mem_forUp a body n (i + 1)]
    constructor
    · rintro (h | ⟨k, hk, h⟩)
      · exact ⟨0, by omega, by simpa using h⟩
      · refine ⟨k + 1, by omega, ?_⟩
        have : i + ((k + 1 : Nat) : Int) = i + 1 + k := by push_cast; ring
        rw [this]; exact h
    · rintro ⟨k, hk, h⟩
      cases k with
      | zero => left; simpa using h
      | succ k =>
        right
        refine ⟨k, by omega, ?_⟩
        have : i + ((k + 1 : Nat) : Int) = i + 1 + k := by push_cast; ring
        rw [← this]; exact h

theorem mem_forDown {α : Type} (a : α) (body : Int → List α) :
    ∀ (n : Nat) (i : Int), a ∈ forDown n i body ↔ ∃ k : Nat, k < n ∧ a ∈ body (i - k)
  | 0, i => by simp [forDown]
  | n + 1, i => by
    rw [forDown, List.mem_append, mem_forDown a body n (i - 1)]
    constructor
    · rintro (h | ⟨k, hk, h⟩)
      · exact ⟨0, by omega, by simpa using h⟩
      · refine ⟨k + 1, by omega, ?_⟩
        have : i - ((k + 1 : Nat) : Int) = i - 1 - k := by push_cast; ring
        rw [this]; exact h
    · rintro ⟨k, hk, h⟩
      cases k with
      | zero => left; simpa using h
      | succ k =>
        right
        refine ⟨k, by omega, ?_⟩
        have : i - ((k + 1 : Nat) : Int) = i - 1 - k := by push_cast; ring
        rw [← this]; exact h

/-- Membership in an upward loop over `lo .. hi`. -/
theorem mem_forUp_range {α : Type} (a : α) (body : Int → List α) (lo hi : Int) :
    a ∈ forUp (hi + 1 - lo).toNat lo body ↔ ∃ x : Int, lo ≤ x ∧ x ≤ hi ∧ a ∈ body x := by
  rw [mem_forUp]
  constructor
  · rintro ⟨k, hk, h⟩
    exact ⟨lo + k, by omega, by omega, h⟩
  · rintro ⟨x, h1, h2, h⟩
    refine ⟨(x - lo).toNat, by omega, ?_⟩
    have : lo + ((x - lo).toNat : Int) = x := by omega
    rw [this]; exact h

theorem mem_store (wr : Write) (w h gx gy idx : Int) (c : Nat) :
    wr ∈ store w h gx gy idx c ↔
      (0 ≤ gx ∧ gx < w ∧ 0 ≤ gy ∧ gy < h) ∧ wr = ⟨gx, gy, idx, c⟩ := by
  unfold store
  split <;> simp_all

/-- A store that passed its guard lies inside the pixel array. -/
theorem Write.ok.idx_range {w h : Int} {wr : Write} (hw : wr.ok w h) :
    0 ≤ wr.idx ∧ wr.idx < w * h := by
  obtain ⟨h1, h2, h3, h4, h5⟩ := hw
  rw [h5]
  constructor
  · have : 0 ≤ wr.y * w := mul_nonneg h3 (by omega)
    omega
  · have : (wr.y + 1) * w ≤ h * w := mul_le_mul_of_nonneg_right (by omega) (by omega)
    nlinarith

theorem runWrites_append (a b : List Write) :
    ∀ p : List Nat, runWrites (a ++ b) p = (runWrites a p).bind (runWrites b) := by
  induction a with
  | nil => intro p; simp [runWrites]
  | cons wr rest ih =>
    intro p
    simp only [List.cons_append, runWrites]
    cases hq : writePixel p wr.idx wr.color with
    | none => simp
    | some q => simp [ih q]

theorem markTop_ok (w h tx ty : Int) : ∀ wr ∈ markTop w h tx ty, wr.ok w h := by
  intro wr hwr
  unfold markTop at hwr
  split at hwr
  · rename_i hg
    simp only [List.mem_singleton] at hwr
    subst hwr
    exact ⟨le_of_lt hg.1, hg.2.1, le_of_lt hg.2.2.1, hg.2.2.2, rfl⟩
  · simp at hwr

theorem store_ok (w h gx gy idx : Int) (c : Nat) (hidx : idx = gx + gy * w) :
    ∀ wr ∈ store w h gx gy idx c, wr.ok w h := by
  intro wr hwr
  rw [mem_store] at hwr
  obtain ⟨hg, rfl⟩ := hwr
  exact ⟨hg.1, hg.2.1, hg.2.2.1, hg.2.2.2, hidx⟩

theorem drawTriangleWrites_ok (w h tx ty s : Int) :
    ∀ wr ∈ drawTriangleWrites w h tx ty s, wr.ok w h := by
  intro wr hwr
  unfold drawTriangleWrites at hwr
  rw [List.mem_append] at hwr
  rcases hwr with hwr | hwr
  · exact markTop_ok w h tx ty wr hwr
  · split at hwr
    · simp at hwr
    · simp only [List.mem_append, lowerEdge, leftEdge, rightEdge, mem_forUp] at hwr
      rcases hwr with (⟨k, -, hk⟩ | ⟨k, -, hk⟩) | ⟨k, -, hk⟩
      · exact store_ok _ _ _ _ _ _ rfl wr hk
      · exact store_ok _ _ _ _ _ _ (by ring) wr hk
      · exact store_ok _ _ _ _ _ _ (by ring) wr hk

theorem mem_perimeter (wr : Write) (w h cx cy x y : Int) :
    wr ∈ perimeter w h cx cy x y ↔
      inFrame w h (cx + x) (cy + y) ∧
        (wr = ⟨cx + x, cy + y, (cx + x) + (cy + y) * w, white⟩ ∨
          (inFrame w h (cx + x) (cy + y - 1) ∧
            wr = ⟨cx + x, cy + y - 1, (cx + x) + (cy + y - 1) * w, blue⟩) ∨
          (inFrame w h (cx + x) (cy + y + 1) ∧
            wr = ⟨cx + x, cy + y + 1, (cx + x) + (cy + y + 1) * w, blue⟩)) := by
  unfold perimeter inFrame
  split
  · rename_i hg
    simp only [List.mem_cons, List.mem_append, mem_store]
    constructor
    · intro hm
      exact ⟨⟨hg.1, hg.2.1, hg.2.2.1, hg.2.2.2⟩, hm⟩
    · intro hm
      exact hm.2
  · rename_i hg
    constructor
    · intro hm
      simp at hm
    · rintro ⟨⟨h1, h2, h3, h4⟩, -⟩
      exact absurd ⟨h1, h2, h3, h4⟩ hg

/-- The stores of the gap-fill part of a column, upper pass. -/
theorem mem_upperColumn (wr : Write) (w h cx cy r x : Int) :
    wr ∈ upperColumn w h cx cy r x ↔
      wr ∈ perimeter w h cx cy x (csqrt (r * r - x * x)) ∨
        (x < 0 ∧ wr ∈ forUp (csqrt (r * r - (x + 1) * (x + 1)) - csqrt (r * r - x * x)).toNat
          (csqrt (r * r - x * x)) (gapStore w h cx cy x)) ∨
        (0 < x ∧ wr ∈ forUp (csqrt (r * r - (x - 1) * (x - 1)) - csqrt (r * r - x * x)).toNat
          (csqrt (r * r - x * x)) (gapStore w h cx cy x)) := by
  unfold upperColumn upperGap
  simp only [List.mem_append]
  by_cases h1 : x < 0
  · have h2 : ¬ 0 < x := by omega
    simp [h1, h2]
  · by_cases h2 : 0 < x
    · simp [h1, h2]
    · simp [h1, h2]

theorem mem_lowerColumn (wr : Write) (w h cx cy r x : Int) :
    wr ∈ lowerColumn w h cx cy r x ↔
      wr ∈ perimeter w h cx cy x (-csqrt (r * r - x * x)) ∨
        (x < 0 ∧ wr ∈ forDown
          (-csqrt (r * r - x * x) - -csqrt (r * r - (x + 1) * (x + 1))).toNat
          (-csqrt (r * r - x * x)) (gapStore w h cx cy x)) ∨
        (0 < x ∧ wr ∈ forDown
          (-csqrt (r * r - x * x) - -csqrt (r * r - (x - 1) * (x - 1))).toNat
          (-csqrt (r * r - x * x)) (gapStore w h cx cy x)) := by
  unfold lowerColumn lowerGap
  simp only [List.mem_append]
  by_cases h1 : x < 0
  · have h2 : ¬ 0 < x := by omega
    simp [h1, h2]
  · by_cases h2 : 0 < x
    · simp [h1, h2]
    · simp [h1, h2]

theorem mem_drawCircleWrites (wr : Write) (w h cx cy r : Int) (hr : 1 < r) :
    wr ∈ drawCircleWrites w h cx cy r ↔
      wr ∈ markCenter w h cx cy ∨
        (∃ x : Int, -r ≤ x ∧ x ≤ r ∧ wr ∈ upperColumn w h cx cy r x) ∨
        (∃ x : Int, -r ≤ x ∧ x ≤ r ∧ wr ∈ lowerColumn w h cx cy r x) := by
  unfold drawCircleWrites upperPass lowerPass
  have : ¬ r ≤ 1 := by omega
  simp only [this, if_false, List.mem_append, mem_forUp_range]

theorem gapStore_color (w h cx cy x i : Int) :
    ∀ wr ∈ gapStore w h cx cy x i, wr.color = green := by
  intro wr hwr
  unfold gapStore at hwr
  rw [mem_store] at hwr
  rw [hwr.2]

theorem green_ne_blue : green ≠ blue := by decide

theorem white_ne_blue : white ≠ blue := by decide

/-! ## Executing a sequence of stores -/

theorem lastColor_append (a b : List Write) (i : Int) :
    lastColor (a ++ b) i = (lastColor b i).or (lastColor a i) := by
  induction a with
  | nil =>
    show lastColor b i = (lastColor b i).or none
    cases lastColor b i <;> rfl
  | cons wr rest ih =>
    show (lastColor (rest ++ b) i).or _ = (lastColor b i).or ((lastColor rest i).or _)
    rw [ih]
    cases lastColor b i <;> rfl

theorem lastColor_eq_none (l : List Write) (i : Int) :
    lastColor l i = none ↔ ∀ wr ∈ l, wr.idx ≠ i := by
  induction l with
  | nil => simp [lastColor]
  | cons wr rest ih =>
    simp only [lastColor, List.mem_cons, forall_eq_or_imp, Option.or_eq_none, ih]
    constructor
    · rintro ⟨h1, h2⟩
      refine ⟨?_, h1⟩
      intro hw
      simp [hw] at h2
    · rintro ⟨h1, h2⟩
      exact ⟨h2, by simp [h1]⟩

theorem lastColor_some_mem (l : List Write) (i : Int) (c : Nat) :
    lastColor l i = some c → ∃ wr ∈ l, wr.idx = i ∧ wr.color = c := by
  induction l with
  | nil => simp [lastColor]
  | cons wr rest ih =>
    simp only [lastColor]
    cases hrest : lastColor rest i with
    | some d =>
      intro hd
      have hd : d = c := by simpa [Option.or] using hd
      subst hd
      obtain ⟨v, hv, h1, h2⟩ := ih hrest
      exact ⟨v, List.mem_cons_of_mem _ hv, h1, h2⟩
    | none =>
      by_cases hw : wr.idx = i
      · intro hc
        have hc : wr.color = c := by simpa [Option.or, hw] using hc
        exact ⟨wr, List.mem_cons_self _ _, hw, hc⟩
      · simp [hw]

/-- If some store hits index `i` and every store hitting `i` has colour `c`,
the last one has colour `c`. -/
theorem lastColor_of_forall (l : List Write) (i : Int) (c : Nat)
    (hex : ∃ wr ∈ l, wr.idx = i) (hall : ∀ wr ∈ l, wr.idx = i → wr.color = c) :
    lastColor l i = some c := by
  cases hl : lastColor l i with
  | none =>
    rw [lastColor_eq_none] at hl
    obtain ⟨wr, hwr, hi⟩ := hex
    exact absurd hi (hl wr hwr)
  | some d =>
    obtain ⟨wr, hwr, hi, hd⟩ := lastColor_some_mem l i d hl
    rw [← hd, hall wr hwr hi]

/-- A sequence of stores whose indices all lie inside the array runs to the end;
the array keeps its length, and each cell holds the colour of the last store
that hit it, or its old value. -/
theorem runWrites_spec (tr : List Write) :
    ∀ p : List Nat, (∀ wr ∈ tr, 0 ≤ wr.idx ∧ wr.idx < p.length) →
      ∃ q, runWrites tr p = some q ∧ q.length = p.length ∧
        ∀ i : Int, 0 ≤ i →
          q.getD i.toNat 0 = (lastColor tr i).getD (p.getD i.toNat 0) := by
  induction tr with
  | nil =>
    intro p _
    exact ⟨p, rfl, rfl, fun i _ => by simp [lastColor]⟩
  | cons wr rest ih =>
    intro p hp
    have hwr := hp wr (List.mem_cons_self _ _)
    have hlen : (p.set wr.idx.toNat wr.color).length = p.length := List.length_set _ _ _
    obtain ⟨q, hq, hql, hqv⟩ := ih (p.set wr.idx.toNat wr.color) (by
      intro v hv
      rw [hlen]
      exact hp v (List.mem_cons_of_mem _ hv))
    refine ⟨q, ?_, by rw [hql, hlen], ?_⟩
    · simp only [runWrites, writePixel, hwr, and_self, if_true, Option.some_bind]
      exact hq
    · intro i hi
      rw [hqv i hi]
      simp only [lastColor]
      cases hrest : lastColor rest i with
      | some c => simp
      | none =>
        show (p.set wr.idx.toNat wr.color).getD i.toNat 0 =
          (Option.or none (if wr.idx = i then some wr.color else none)).getD _
        rw [List.getD_eq_getElem?_getD, List.getElem?_set]
        by_cases hw : wr.idx = i
        · subst hw
          have : wr.idx.toNat < p.length := by omega
          simp [this, Option.or]
        · have : wr.idx.toNat ≠ i.toNat := by omega
          simp [hw, this, Option.or]

/-- Two pixels of a frame with the same index are the same pixel. -/
theorem idx_inj {w x y x' y' : Int} (hx : 0 ≤ x ∧ x < w) (hx' : 0 ≤ x' ∧ x' < w)
    (h : x + y * w = x' + y' * w) : x = x' ∧ y = y' := by
  have hy : y = y' := by
    by_contra hne
    rcases lt_or_gt_of_ne hne with hlt | hgt
    · have : (y + 1) * w ≤ y' * w := mul_le_mul_of_nonneg_right (by omega) (by omega)
      nlinarith
    · have : (y' + 1) * w ≤ y * w := mul_le_mul_of_nonneg_right (by omega) (by omega)
      nlinarith
  subst hy
  exact ⟨by omega, rfl⟩

/-! ## The stores of drawTriangle -/

theorem mem_store_fields {wr : Write} {w h gx gy idx : Int} {c : Nat}
    (hwr : wr ∈ store w h gx gy idx c) :
    wr.x = gx ∧ wr.y = gy ∧ wr.idx = idx ∧ wr.color = c ∧ inFrame w h gx gy := by
  rw [mem_store] at hwr
  obtain ⟨hg, rfl⟩ := hwr
  exact ⟨rfl, rfl, rfl, rfl, hg⟩

theorem mem_markTop_fields {wr : Write} {w h tx ty : Int} (hwr : wr ∈ markTop w h tx ty) :
    wr.x = tx ∧ wr.y = ty ∧ wr.idx = tx + ty * w ∧ wr.color = red ∧
      (0 < tx ∧ tx < w ∧ 0 < ty ∧ ty < h) := by
  unfold markTop at hwr
  split at hwr
  · rename_i hg
    simp only [List.mem_singleton] at hwr
    subst hwr
    exact ⟨rfl, rfl, rfl, rfl, hg⟩
  · simp at hwr

theorem tdiv_two (s : Int) (hs : 0 ≤ s) : s.tdiv 2 = s / 2 :=
  Int.tdiv_eq_ediv hs (by decide)

theorem tmod_two (s : Int) (hs : 0 ≤ s) : s.tmod 2 = s % 2 :=
  Int.tmod_eq_emod hs (by decide)

/-- The stores of `drawTriangle` for `side_length > 1`, by origin. -/
theorem drawTriangleWrites_cases (w h tx ty s : Int) (hs : 1 < s) (wr : Write)
    (hwr : wr ∈ drawTriangleWrites w h tx ty s) :
    (wr.x = tx ∧ wr.y = ty ∧ wr.color = red) ∨
      (wr.color = white ∧ wr.y = ty - s / 2 ∧ tx - s / 2 ≤ wr.x ∧ wr.x ≤ tx - s / 2 + s) ∨
      (wr.color = white ∧ tx - s / 2 ≤ wr.x ∧ wr.x ≤ tx ∧
        wr.y = ty - s / 2 + (wr.x - (tx - s / 2)) + 1) ∨
      (wr.color = white ∧ tx + 1 ≤ wr.x ∧ wr.x ≤ tx - s / 2 + s ∧
        wr.y = ty - s / 2 + (tx - s / 2 + s - wr.x) + 1) := by
  unfold drawTriangleWrites at hwr
  have hs1 : ¬ s ≤ 1 := by omega
  rw [tdiv_two s (by omega)] at hwr
  simp only [hs1, if_false, List.mem_append, lowerEdge, leftEdge, rightEdge,
    mem_forUp_range] at hwr
  rcases hwr with hwr | (⟨x, h1, h2, hx⟩ | ⟨x, h1, h2, hx⟩) | ⟨x, h1, h2, hx⟩
  · obtain ⟨e1, e2, -, e4, -⟩ := mem_markTop_fields hwr
    exact Or.inl ⟨e1, e2, e4⟩
  · obtain ⟨e1, e2, -, e4, -⟩ := mem_store_fields hx
    right; left
    exact ⟨e4, e2, by omega, by omega⟩
  · obtain ⟨e1, e2, -, e4, -⟩ := mem_store_fields hx
    right; right; left
    exact ⟨e4, by omega, by omega, by omega⟩
  · obtain ⟨e1, e2, -, e4, -⟩ := mem_store_fields hx
    right; right; right
    exact ⟨e4, by omega, by omega, by omega⟩

theorem mem_lowerEdge (w h tx ty s x : Int) (hs : 1 < s)
    (hx : tx - s / 2 ≤ x ∧ x ≤ tx - s / 2 + s) (hin : inFrame w h x (ty - s / 2)) :
    (⟨x, ty - s / 2, x + (ty - s / 2) * w, white⟩ : Write) ∈
      drawTriangleWrites w h tx ty s := by
  unfold drawTriangleWrites
  have hs1 : ¬ s ≤ 1 := by omega
  rw [tdiv_two s (by omega)]
  simp only [hs1, if_false, List.mem_append, lowerEdge, mem_forUp_range]
  right; left; left
  exact ⟨x, hx.1, hx.2, (mem_store _ _ _ _ _ _ _).2 ⟨hin, rfl⟩⟩

theorem mem_leftEdge (w h tx ty s x : Int) (hs : 1 < s)
    (hx : tx - s / 2 ≤ x ∧ x ≤ tx)
    (hin : inFrame w h x (ty - s / 2 + (x - (tx - s / 2)) + 1)) :
    ∃ wr ∈ drawTriangleWrites w h tx ty s, wr.color = white ∧
      wr.idx = x + (ty - s / 2 + (x - (tx - s / 2)) + 1) * w := by
  refine ⟨⟨x, ty - s / 2 + (x - (tx - s / 2)) + 1,
    x + (ty - s / 2 + x - (tx - s / 2) + 1) * w, white⟩, ?_, rfl, ?_⟩
  · unfold drawTriangleWrites
    have hs1 : ¬ s ≤ 1 := by omega
    rw [tdiv_two s (by omega)]
    simp only [hs1, if_false, List.mem_append, leftEdge, mem_forUp_range]
    right; left; right
    exact ⟨x, hx.1, hx.2, (mem_store _ _ _ _ _ _ _).2 ⟨hin, rfl⟩⟩
  · show x + (ty - s / 2 + x - (tx - s / 2) + 1) * w = _
    ring

theorem mem_rightEdge (w h tx ty s x : Int) (hs : 1 < s)
    (hx : tx + 1 ≤ x ∧ x ≤ tx - s / 2 + s)
    (hin : inFrame w h x (ty - s / 2 + (tx - s / 2 + s - x) + 1)) :
    ∃ wr ∈ drawTriangleWrites w h tx ty s, wr.color = white ∧
      wr.idx = x + (ty - s / 2 + (tx - s / 2 + s - x) + 1) * w := by
  refine ⟨⟨x, ty - s / 2 + (tx - s / 2 + s - x) + 1,
    x + (ty - s / 2 + (tx - s / 2) + s - x + 1) * w, white⟩, ?_, rfl, ?_⟩
  · unfold drawTriangleWrites
    have hs1 : ¬ s ≤ 1 := by omega
    rw [tdiv_two s (by omega)]
    simp only [hs1, if_false, List.mem_append, rightEdge, mem_forUp_range]
    right; right
    exact ⟨x, hx.1, hx.2, (mem_store _ _ _ _ _ _ _).2 ⟨hin, rfl⟩⟩
  · show x + (ty - s / 2 + (tx - s / 2) + s - x + 1) * w = _
    ring

/-- `drawTriangle` always runs to the end on a frame whose pixel array has
`width * height` cells, and each cell then holds the colour of the last store
that hit it, or its old value. -/
theorem drawTriangle_run (f : Frame) (tx ty s : Int)
    (hlen : (f.pixels.length : Int) = f.width * f.height) :
    ∃ g, drawTriangle f tx ty s = some g ∧ g.width = f.width ∧ g.height = f.height ∧
      ∀ x y : Int, 0 ≤ x + y * f.width →
        g.at x y = (lastColor (drawTriangleWrites f.width f.height tx ty s)
          (x + y * f.width)).getD (f.at x y) := by
  obtain ⟨q, hq, -, hqv⟩ := runWrites_spec (drawTriangleWrites f.width f.height tx ty s)
    f.pixels (by
      intro wr hwr
      have := (drawTriangleWrites_ok _ _ _ _ _ wr hwr).idx_range
      omega)
  refine ⟨{ f with pixels := q }, by simp [drawTriangle, hq], rfl, rfl, ?_⟩
  intro x y hxy
  exact hqv _ hxy

theorem forUp_singleton {α : Type} (g : Int → α) :
    ∀ (n : Nat) (i : Int),
      forUp n i (fun x => [g x]) = (List.range n).map (fun k : Nat => g (i + k))
  | 0, i => rfl
  | n + 1, i => by
    rw [forUp, forUp_singleton g n (i + 1), List.range_succ_eq_map, List.map_cons,
      List.map_map]
    simp only [List.singleton_append, Nat.cast_zero, add_zero, List.cons.injEq, true_and]
    apply List.map_congr_left
    intro k _
    simp only [Function.comp, Nat.succ_eq_add_one, Nat.cast_add, Nat.cast_one]
    congr 1
    ring

theorem mem_leftEdgeTargets (tx ty s : Int) (hs : 1 < s) (p : Int × Int) :
    p ∈ leftEdgeTargets tx ty s ↔
      tx - s / 2 ≤ p.1 ∧ p.1 ≤ tx ∧ p.2 = ty - s / 2 + (p.1 - (tx - s / 2)) + 1 := by
  unfold leftEdgeTargets
  rw [tdiv_two s (by omega)]
  simp only [mem_forUp_range, List.mem_singleton]
  constructor
  · rintro ⟨x, h1, h2, rfl⟩
    exact ⟨h1, h2, rfl⟩
  · rintro ⟨h1, h2, h3⟩
    exact ⟨p.1, h1, h2, Prod.ext rfl h3⟩

theorem mem_rightEdgeTargets (tx ty s : Int) (hs : 1 < s) (p : Int × Int) :
    p ∈ rightEdgeTargets tx ty s ↔
      tx + 1 ≤ p.1 ∧ p.1 ≤ tx - s / 2 + s ∧
        p.2 = ty - s / 2 + (tx - s / 2 + s - p.1) + 1 := by
  unfold rightEdgeTargets
  rw [tdiv_two s (by omega)]
  simp only [mem_forUp_range, List.mem_singleton]
  constructor
  · rintro ⟨x, h1, h2, rfl⟩
    exact ⟨h1, h2, rfl⟩
  · rintro ⟨h1, h2, h3⟩
    exact ⟨p.1, h1, h2, Prod.ext rfl h3⟩

theorem leftEdgeTargets_eq (tx ty s : Int) :
    leftEdgeTargets tx ty s =
      (List.range (s.tdiv 2 + 1).toNat).map
        (fun k : Nat => (tx - s.tdiv 2 + k, ty - s.tdiv 2 + 1 + k)) := by
  unfold leftEdgeTargets
  simp only []
  rw [forUp_singleton]
  have hn : (tx + 1 - (tx - s.tdiv 2)).toNat = (s.tdiv 2 + 1).toNat := by
    congr 1; ring
  rw [hn]
  apply List.map_congr_left
  intro k _
  refine Prod.ext rfl ?_
  show ty - s.tdiv 2 + (tx - s.tdiv 2 + k - (tx - s.tdiv 2)) + 1 = ty - s.tdiv 2 + 1 + k
  ring

theorem rightEdgeTargets_eq (tx ty s : Int) (hs : 1 < s) :
    rightEdgeTargets tx ty s =
      (List.range (s - s.tdiv 2).toNat).map
        (fun k : Nat => (tx + 1 + k, ty + s.tmod 2 - k)) := by
  unfold rightEdgeTargets
  simp only []
  rw [forUp_singleton]
  have hn : (tx - s.tdiv 2 + s + 1 - (tx + 1)).toNat = (s - s.tdiv 2).toNat := by
    congr 1; ring
  rw [hn]
  apply List.map_congr_left
  intro k _
  refine Prod.ext rfl ?_
  show ty - s.tdiv 2 + (tx - s.tdiv 2 + s - (tx + 1 + k)) + 1 = ty + s.tmod 2 - k
  rw [tdiv_two s (by omega), tmod_two s (by omega)]
  omega

/-! ## The integer square root -/

theorem sqrtLoop_spec (n : Nat) :
    ∀ k : Nat, sqrtLoop k n * sqrtLoop k n ≤ n ∧
      ∀ j : Nat, j ≤ k → j * j ≤ n → j ≤ sqrtLoop k n
  | 0 => by
    refine ⟨by simp [sqrtLoop], ?_⟩
    intro j hj _
    simpa [sqrtLoop] using hj
  | k + 1 => by
    obtain ⟨h1, h2⟩ := sqrtLoop_spec n k
    unfold sqrtLoop
    split
    · rename_i hk
      exact ⟨hk, fun j hj _ => hj⟩
    · rename_i hk
      refine ⟨h1, ?_⟩
      intro j hj hjn
      apply h2 j _ hjn
      by_contra hc
      have : j = k + 1 := by omega
      subst this
      exact hk hjn

theorem csqrt_nonneg (n : Int) : 0 ≤ csqrt n := by
  unfold csqrt
  exact Int.ofNat_nonneg _

/-- `csqrt n` is the floor of the square root of `n ≥ 0`. -/
theorem csqrt_spec (n : Int) (hn : 0 ≤ n) :
    csqrt n * csqrt n ≤ n ∧ n < (csqrt n + 1) * (csqrt n + 1) := by
  obtain ⟨m, rfl⟩ := Int.eq_ofNat_of_zero_le hn
  obtain ⟨h1, h2⟩ := sqrtLoop_spec m m
  unfold csqrt
  simp only [Int.toNat_ofNat]
  constructor
  · exact_mod_cast h1
  · by_contra hc
    have hc' : (sqrtLoop m m + 1) * (sqrtLoop m m + 1) ≤ m := by
      have : ((sqrtLoop m m : Int) + 1) * ((sqrtLoop m m : Int) + 1) ≤ (m : Int) := by omega
      exact_mod_cast this
    have hle : sqrtLoop m m + 1 ≤ m := by nlinarith
    have := h2 (sqrtLoop m m + 1) hle hc'
    omega

theorem csqrt_le_radius (r x : Int) (hr : 0 ≤ r) (hx : -r ≤ x ∧ x ≤ r) :
    csqrt (r * r - x * x) ≤ r := by
  have hn : 0 ≤ r * r - x * x := by nlinarith
  have h1 := (csqrt_spec _ hn).1
  have h0 := csqrt_nonneg (r * r - x * x)
  by_contra hc
  have : r + 1 ≤ csqrt (r * r - x * x) := by omega
  nlinarith

/-! ## Last store of a loop -/

theorem forUp_add {α : Type} (body : Int → List α) :
    ∀ (a b : Nat) (i : Int),
      forUp (a + b) i body = forUp a i body ++ forUp b (i + a) body
  | 0, b, i => by simp [forUp]
  | a + 1, b, i => by
    have : a + 1 + b = (a + b) + 1 := by omega
    rw [this, forUp, forUp, forUp_add body a b (i + 1), List.append_assoc]
    congr 3
    push_cast
    ring

theorem lastColor_append_eq_some (a b : List Write) (i : Int) (c : Nat) :
    lastColor (a ++ b) i = some c ↔
      lastColor b i = some c ∨ (lastColor b i = none ∧ lastColor a i = some c) := by
  rw [lastColor_append]
  cases lastColor b i <;> simp [Option.or]

theorem lastColor_ne_of_colors (l : List Write) (i : Int) (c : Nat)
    (h : ∀ wr ∈ l, wr.color ≠ c) : lastColor l i ≠ some c := by
  intro hc
  obtain ⟨wr, hwr, -, hcol⟩ := lastColor_some_mem l i c hc
  exact h wr hwr hcol

/-- In a loop over `lo .. hi` in which only iteration `x0` stores to index `i`,
the last store to `i` is the last one of iteration `x0`. -/
theorem lastColor_forUp_single (body : Int → List Write) (lo hi x0 i : Int)
    (h0 : lo ≤ x0 ∧ x0 ≤ hi)
    (hother : ∀ x : Int, lo ≤ x → x ≤ hi → x ≠ x0 → ∀ wr ∈ body x, wr.idx ≠ i) :
    lastColor (forUp (hi + 1 - lo).toNat lo body) i = lastColor (body x0) i := by
  have hn : (hi + 1 - lo).toNat = (x0 - lo).toNat + (1 + (hi - x0).toNat) := by omega
  rw [hn, forUp_add, forUp_add]
  have e1 : lo + ((x0 - lo).toNat : Int) = x0 := by omega
  rw [e1]
  have hA : lastColor (forUp (x0 - lo).toNat lo body) i = none := by
    rw [lastColor_eq_none]
    intro wr hwr
    rw [mem_forUp] at hwr
    obtain ⟨k, hk, hb⟩ := hwr
    exact hother (lo + k) (by omega) (by omega) (by omega) wr hb
  have hB : lastColor (forUp (hi - x0).toNat (x0 + ((1 : Nat) : Int)) body) i = none := by
    rw [lastColor_eq_none]
    intro wr hwr
    rw [mem_forUp] at hwr
    obtain ⟨k, hk, hb⟩ := hwr
    exact hother (x0 + ((1 : Nat) : Int) + k) (by omega) (by omega) (by omega) wr hb
  rw [lastColor_append, lastColor_append, hA, hB]
  have : forUp 1 x0 body = body x0 := by simp [forUp]
  rw [this]
  cases lastColor (body x0) i <;> rfl

/-! ## The columns of drawCircle -/

theorem white_ne_green : white ≠ green := by decide

theorem white_ne_red : white ≠ red := by decide

theorem perimeter_fields {wr : Write} {w h cx cy x y : Int}
    (hwr : wr ∈ perimeter w h cx cy x y) :
    wr.x = cx + x ∧ wr.ok w h ∧ inFrame w h (cx + x) (cy + y) ∧
      ((wr.color = white ∧ wr.y = cy + y) ∨
        (wr.color = blue ∧ (wr.y = cy + y - 1 ∨ wr.y = cy + y + 1))) := by
  rw [mem_perimeter] at hwr
  obtain ⟨hp, rfl | ⟨hb, rfl⟩ | ⟨hb, rfl⟩⟩ := hwr
  · exact ⟨rfl, ⟨hp.1, hp.2.1, hp.2.2.1, hp.2.2.2, rfl⟩, hp, Or.inl ⟨rfl, rfl⟩⟩
  · exact ⟨rfl, ⟨hb.1, hb.2.1, hb.2.2.1, hb.2.2.2, rfl⟩, hp, Or.inr ⟨rfl, Or.inl rfl⟩⟩
  · exact ⟨rfl, ⟨hb.1, hb.2.1, hb.2.2.1, hb.2.2.2, rfl⟩, hp, Or.inr ⟨rfl, Or.inr rfl⟩⟩

theorem gapStore_fields {wr : Write} {w h cx cy x i : Int}
    (hwr : wr ∈ gapStore w h cx cy x i) :
    wr.x = cx + x ∧ wr.y = cy + i ∧ wr.ok w h ∧ wr.color = green := by
  unfold gapStore at hwr
  rw [mem_store] at hwr
  obtain ⟨hg, rfl⟩ := hwr
  exact ⟨rfl, rfl, ⟨hg.1, hg.2.1, hg.2.2.1, hg.2.2.2, rfl⟩, rfl⟩

theorem upperGap_fields {wr : Write} {w h cx cy r x y : Int}
    (hwr : wr ∈ upperGap w h cx cy r x y) :
    wr.x = cx + x ∧ cy + y ≤ wr.y ∧ wr.ok w h ∧ wr.color = green := by
  unfold upperGap at hwr
  split at hwr
  · rw [mem_forUp] at hwr
    obtain ⟨k, -, hk⟩ := hwr
    obtain ⟨e1, e2, e3, e4⟩ := gapStore_fields hk
    exact ⟨e1, by omega, e3, e4⟩
  · split at hwr
    · rw [mem_forUp] at hwr
      obtain ⟨k, -, hk⟩ := hwr
      obtain ⟨e1, e2, e3, e4⟩ := gapStore_fields hk
      exact ⟨e1, by omega, e3, e4⟩
    · simp at hwr

theorem lowerGap_fields {wr : Write} {w h cx cy r x y : Int}
    (hwr : wr ∈ lowerGap w h cx cy r x y) :
    wr.x = cx + x ∧ wr.y ≤ cy + y ∧ wr.ok w h ∧ wr.color = green := by
  unfold lowerGap at hwr
  split at hwr
  · rw [mem_forDown] at hwr
    obtain ⟨k, -, hk⟩ := hwr
    obtain ⟨e1, e2, e3, e4⟩ := gapStore_fields hk
    exact ⟨e1, by omega, e3, e4⟩
  · split at hwr
    · rw [mem_forDown] at hwr
      obtain ⟨k, -, hk⟩ := hwr
      obtain ⟨e1, e2, e3, e4⟩ := gapStore_fields hk
      exact ⟨e1, by omega, e3, e4⟩
    · simp at hwr

/-- With no iteration the upper gap-fill stores nothing. -/
theorem upperGap_of_noGap (w h cx cy r x : Int) (hg : noGap r x) :
    upperGap w h cx cy r x (csqrt (r * r - x * x)) = [] := by
  unfold upperGap
  split
  · rename_i hx
    have := hg.1 hx
    have hz : (csqrt (r * r - (x + 1) * (x + 1)) - csqrt (r * r - x * x)).toNat = 0 := by
      omega
    simp only [hz, forUp]
  · split
    · rename_i hx
      have := hg.2 (by omega)
      have hz : (csqrt (r * r - (x - 1) * (x - 1)) - csqrt (r * r - x * x)).toNat = 0 := by
        omega
      simp only [hz, forUp]
    · rfl

theorem lowerGap_of_noGap (w h cx cy r x : Int) (hg : noGap r x) :
    lowerGap w h cx cy r x (-csqrt (r * r - x * x)) = [] := by
  unfold lowerGap
  split
  · rename_i hx
    have := hg.1 hx
    have hz : (-csqrt (r * r - x * x) - -csqrt (r * r - (x + 1) * (x + 1))).toNat = 0 := by
      omega
    simp only [hz, forDown]
  · split
    · rename_i hx
      have := hg.2 (by omega)
      have hz : (-csqrt (r * r - x * x) - -csqrt (r * r - (x - 1) * (x - 1))).toNat = 0 := by
        omega
      simp only [hz, forDown]
    · rfl

/-- With at least one iteration the upper gap-fill stores green on the perimeter
pixel of its column (its first iteration has `i = y`). -/
theorem upperGap_hits_perimeter (w h cx cy r x : Int) (hg : ¬ noGap r x)
    (hin : inFrame w h (cx + x) (cy + csqrt (r * r - x * x))) :
    ∃ wr ∈ upperGap w h cx cy r x (csqrt (r * r - x * x)),
      wr.idx = (cx + x) + (cy + csqrt (r * r - x * x)) * w := by
  refine ⟨⟨cx + x, cy + csqrt (r * r - x * x),
    (cx + x) + (cy + csqrt (r * r - x * x)) * w, green⟩, ?_, rfl⟩
  have hmem : (⟨cx + x, cy + csqrt (r * r - x * x),
      (cx + x) + (cy + csqrt (r * r - x * x)) * w, green⟩ : Write) ∈
      gapStore w h cx cy x (csqrt (r * r - x * x) + ((0 : Nat) : Int)) := by
    unfold gapStore
    rw [mem_store]
    simp only [Nat.cast_zero, add_zero]
    exact ⟨hin, trivial⟩
  unfold upperGap
  unfold noGap at hg
  split
  · rename_i hx
    rw [mem_forUp]
    refine ⟨0, ?_, hmem⟩
    by_contra hc
    apply hg
    exact ⟨fun _ => by omega, fun h => by omega⟩
  · split
    · rename_i hx
      rw [mem_forUp]
      refine ⟨0, ?_, hmem⟩
      by_contra hc
      apply hg
      exact ⟨fun h => by omega, fun _ => by omega⟩
    · exfalso
      apply hg
      exact ⟨fun h => by omega, fun h => by omega⟩

theorem lowerGap_hits_perimeter (w h cx cy r x : Int) (hg : ¬ noGap r x)
    (hin : inFrame w h (cx + x) (cy + -csqrt (r * r - x * x))) :
    ∃ wr ∈ lowerGap w h cx cy r x (-csqrt (r * r - x * x)),
      wr.idx = (cx + x) + (cy + -csqrt (r * r - x * x)) * w := by
  refine ⟨⟨cx + x, cy + -csqrt (r * r - x * x),
    (cx + x) + (cy + -csqrt (r * r - x * x)) * w, green⟩, ?_, rfl⟩
  have hmem : (⟨cx + x, cy + -csqrt (r * r - x * x),
      (cx + x) + (cy + -csqrt (r * r - x * x)) * w, green⟩ : Write) ∈
      gapStore w h cx cy x (-csqrt (r * r - x * x) - ((0 : Nat) : Int)) := by
    unfold gapStore
    rw [mem_store]
    simp only [Nat.cast_zero, sub_zero]
    exact ⟨hin, trivial⟩
  unfold lowerGap
  unfold noGap at hg
  split
  · rename_i hx
    rw [mem_forDown]
    refine ⟨0, ?_, hmem⟩
    by_contra hc
    apply hg
    exact ⟨fun _ => by omega, fun h => by omega⟩
  · split
    · rename_i hx
      rw [mem_forDown]
      refine ⟨0, ?_, hmem⟩
      by_contra hc
      apply hg
      exact ⟨fun h => by omega, fun _ => by omega⟩
    · exfalso
      apply hg
      exact ⟨fun h => by omega, fun h => by omega⟩

/-- Stores aimed at different pixels of the frame have different indices. -/
theorem Write.ok.idx_ne {w h : Int} {wr : Write} (hok : wr.ok w h) {px py : Int}
    (hp : 0 ≤ px ∧ px < w) (hne : wr.x ≠ px ∨ wr.y ≠ py) : wr.idx ≠ px + py * w := by
  intro he
  rw [hok.2.2.2.2] at he
  have := idx_inj ⟨hok.1, hok.2.1⟩ hp he
  omega

/-- The last store of a column's perimeter block to a pixel of that column is
white exactly for the perimeter pixel. -/
theorem lastColor_perimeter_white (w h cx cy x y px py : Int)
    (hin : inFrame w h (cx + x) (cy + y)) (hpx : px = cx + x) :
    lastColor (perimeter w h cx cy x y) (px + py * w) = some white ↔ py = cy + y := by
  have hp : 0 ≤ px ∧ px < w := by rw [hpx]; exact ⟨hin.1, hin.2.1⟩
  constructor
  · intro hl
    obtain ⟨wr, hwr, hidx, hcol⟩ := lastColor_some_mem _ _ _ hl
    obtain ⟨e1, hok, -, hc⟩ := perimeter_fields hwr
    rcases hc with ⟨-, hy⟩ | ⟨hb, -⟩
    · by_contra hne
      exact hok.idx_ne hp (Or.inr (by omega)) hidx
    · rw [hb] at hcol
      exact absurd hcol.symm white_ne_blue
  · intro hpy
    have hsplit : perimeter w h cx cy x y =
        [⟨cx + x, cy + y, (cx + x) + (cy + y) * w, white⟩] ++
          (store w h (cx + x) (cy + y - 1) ((cx + x) + (cy + y - 1) * w) blue ++
            store w h (cx + x) (cy + y + 1) ((cx + x) + (cy + y + 1) * w) blue) := by
      unfold perimeter
      have hin' := hin
      unfold inFrame at hin'
      have hg : cx + x ≥ 0 ∧ cx + x < w ∧ cy + y ≥ 0 ∧ cy + y < h := hin'
      rw [if_pos hg]
      rfl
    rw [hsplit, lastColor_append_eq_some]
    right
    constructor
    · rw [lastColor_eq_none]
      intro wr hwr
      have hwr' : wr ∈ perimeter w h cx cy x y := by
        rw [hsplit]; exact List.mem_append_right _ hwr
      obtain ⟨-, hok, -, -⟩ := perimeter_fields hwr'
      rw [List.mem_append] at hwr
      rcases hwr with hwr | hwr
      · obtain ⟨-, e2, -⟩ := mem_store_fields hwr
        exact hok.idx_ne hp (Or.inr (by omega))
      · obtain ⟨-, e2, -⟩ := mem_store_fields hwr
        exact hok.idx_ne hp (Or.inr (by omega))
    · have : (cx + x) + (cy + y) * w = px + py * w := by rw [hpx, hpy]
      simp [lastColor, Option.or, this]

theorem lastColor_upperColumn_white (w h cx cy r x px py : Int)
    (hin : inFrame w h (cx + x) (cy + csqrt (r * r - x * x))) (hpx : px = cx + x) :
    lastColor (upperColumn w h cx cy r x) (px + py * w) = some white ↔
      py = cy + csqrt (r * r - x * x) ∧ noGap r x := by
  unfold upperColumn
  simp only []
  rw [lastColor_append_eq_some, lastColor_perimeter_white w h cx cy x _ px py hin hpx]
  constructor
  · rintro (hg | ⟨hg, hp⟩)
    · exfalso
      refine lastColor_ne_of_colors _ _ white ?_ hg
      intro wr hwr
      rw [(upperGap_fields hwr).2.2.2]
      exact white_ne_green.symm
    · refine ⟨hp, ?_⟩
      by_contra hng
      obtain ⟨wr, hwr, hidx⟩ := upperGap_hits_perimeter w h cx cy r x hng hin
      rw [lastColor_eq_none] at hg
      apply hg wr hwr
      rw [hidx, hpx, hp]
  · rintro ⟨hp, hg⟩
    right
    rw [upperGap_of_noGap w h cx cy r x hg]
    exact ⟨rfl, hp⟩

theorem lastColor_lowerColumn_white (w h cx cy r x px py : Int)
    (hin : inFrame w h (cx + x) (cy + -csqrt (r * r - x * x))) (hpx : px = cx + x) :
    lastColor (lowerColumn w h cx cy r x) (px + py * w) = some white ↔
      py = cy + -csqrt (r * r - x * x) ∧ noGap r x := by
  unfold lowerColumn
  simp only []
  rw [lastColor_append_eq_some, lastColor_perimeter_white w h cx cy x _ px py hin hpx]
  constructor
  · rintro (hg | ⟨hg, hp⟩)
    · exfalso
      refine lastColor_ne_of_colors _ _ white ?_ hg
      intro wr hwr
      rw [(lowerGap_fields hwr).2.2.2]
      exact white_ne_green.symm
    · refine ⟨hp, ?_⟩
      by_contra hng
      obtain ⟨wr, hwr, hidx⟩ := lowerGap_hits_perimeter w h cx cy r x hng hin
      rw [lastColor_eq_none] at hg
      apply hg wr hwr
      rw [hidx, hpx, hp]
  · rintro ⟨hp, hg⟩
    right
    rw [lowerGap_of_noGap w h cx cy r x hg]
    exact ⟨rfl, hp⟩

theorem upperColumn_fields {wr : Write} {w h cx cy r x : Int}
    (hwr : wr ∈ upperColumn w h cx cy r x) :
    wr.x = cx + x ∧ wr.ok w h ∧
      (wr.color = white → wr.y = cy + csqrt (r * r - x * x) ∧
        inFrame w h (cx + x) (cy + csqrt (r * r - x * x))) := by
  unfold upperColumn at hwr
  simp only [List.mem_append] at hwr
  rcases hwr with hwr | hwr
  · obtain ⟨e1, hok, hin, hc⟩ := perimeter_fields hwr
    refine ⟨e1, hok, ?_⟩
    intro hw
    rcases hc with ⟨-, hy⟩ | ⟨hb, -⟩
    · exact ⟨hy, hin⟩
    · rw [hb] at hw
      exact absurd hw.symm white_ne_blue
  · obtain ⟨e1, -, hok, hc⟩ := upperGap_fields hwr
    refine ⟨e1, hok, ?_⟩
    intro hw
    rw [hc] at hw
    exact absurd hw.symm white_ne_green

theorem lowerColumn_fields {wr : Write} {w h cx cy r x : Int}
    (hwr : wr ∈ lowerColumn w h cx cy r x) :
    wr.x = cx + x ∧ wr.ok w h ∧
      (wr.color = white → wr.y = cy + -csqrt (r * r - x * x) ∧
        inFrame w h (cx + x) (cy + -csqrt (r * r - x * x))) ∧
      wr.y ≤ cy + -csqrt (r * r - x * x) + 1 := by
  unfold lowerColumn at hwr
  simp only [List.mem_append] at hwr
  rcases hwr with hwr | hwr
  · obtain ⟨e1, hok, hin, hc⟩ := perimeter_fields hwr
    refine ⟨e1, hok, ?_, ?_⟩
    · intro hw
      rcases hc with ⟨-, hy⟩ | ⟨hb, -⟩
      · exact ⟨hy, hin⟩
      · rw [hb] at hw
        exact absurd hw.symm white_ne_blue
    · rcases hc with ⟨-, hy⟩ | ⟨-, hy | hy⟩ <;> omega
  · obtain ⟨e1, e2, hok, hc⟩ := lowerGap_fields hwr
    refine ⟨e1, hok, ?_, by omega⟩
    intro hw
    rw [hc] at hw
    exact absurd hw.symm white_ne_green

theorem markCenter_fields {wr : Write} {w h cx cy : Int} (hwr : wr ∈ markCenter w h cx cy) :
    wr.color ≠ white ∧ (cx + 1 < w → cy + 1 < h → wr.ok w h) := by
  unfold markCenter at hwr
  split at hwr
  · rename_i hg
    obtain ⟨g1, g2, g3, g4⟩ := hg
    simp only [List.mem_cons, List.mem_singleton, List.not_mem_nil, or_false] at hwr
    rcases hwr with rfl | rfl | rfl | rfl | rfl
    · exact ⟨white_ne_red.symm, fun _ _ => ⟨le_of_lt g1, g2, le_of_lt g3, g4, rfl⟩⟩
    · refine ⟨white_ne_green.symm, fun _ _ => ⟨?_, ?_, le_of_lt g3, g4, ?_⟩⟩
      · show 0 ≤ cx - 1
        omega
      · show cx - 1 < w
        omega
      · show cx + cy * w - 1 = cx - 1 + cy * w
        ring
    · refine ⟨white_ne_green.symm, fun h1 _ => ⟨?_, h1, le_of_lt g3, g4, ?_⟩⟩
      · show 0 ≤ cx + 1
        omega
      · show cx + cy * w + 1 = cx + 1 + cy * w
        ring
    · refine ⟨white_ne_green.symm, fun _ _ => ⟨le_of_lt g1, g2, ?_, ?_, rfl⟩⟩
      · show 0 ≤ cy - 1
        omega
      · show cy - 1 < h
        omega
    · refine ⟨white_ne_green.symm, fun _ h2 => ⟨le_of_lt g1, g2, ?_, h2, rfl⟩⟩
      show 0 ≤ cy + 1
      omega
  · simp at hwr

/-- A frame containing the circle contains every perimeter pixel. -/
theorem perimeter_inFrame (w h cx cy r x : Int) (hr : 1 < r)
    (hfit : 0 ≤ cx - r ∧ cx + r < w ∧ 0 ≤ cy - r ∧ cy + r < h)
    (hx : -r ≤ x ∧ x ≤ r) :
    inFrame w h (cx + x) (cy + csqrt (r * r - x * x)) ∧
      inFrame w h (cx + x) (cy + -csqrt (r * r - x * x)) := by
  have h0 := csqrt_nonneg (r * r - x * x)
  have h1 := csqrt_le_radius r x (by omega) hx
  unfold inFrame
  constructor <;> refine ⟨?_, ?_, ?_, ?_⟩ <;> omega

theorem lastColor_upperPass (w h cx cy r px py : Int) (hp : 0 ≤ px ∧ px < w)
    (hx : -r ≤ px - cx ∧ px - cx ≤ r) :
    lastColor (upperPass w h cx cy r) (px + py * w) =
      lastColor (upperColumn w h cx cy r (px - cx)) (px + py * w) := by
  unfold upperPass
  apply lastColor_forUp_single _ _ _ _ _ hx
  intro x _ _ hne wr hwr
  obtain ⟨e1, hok, -⟩ := upperColumn_fields hwr
  exact hok.idx_ne hp (Or.inl (by omega))

theorem lastColor_lowerPass (w h cx cy r px py : Int) (hp : 0 ≤ px ∧ px < w)
    (hx : -r ≤ px - cx ∧ px - cx ≤ r) :
    lastColor (lowerPass w h cx cy r) (px + py * w) =
      lastColor (lowerColumn w h cx cy r (px - cx)) (px + py * w) := by
  unfold lowerPass
  apply lastColor_forUp_single _ _ _ _ _ hx
  intro x _ _ hne wr hwr
  obtain ⟨e1, hok, -⟩ := lowerColumn_fields hwr
  exact hok.idx_ne hp (Or.inl (by omega))

/-- On a frame containing the circle, the last store of `drawCircle` to a pixel
is white exactly when the pixel is a perimeter pixel of its column, upper or
lower, and the gap-fill loop of that column has no iteration. -/
theorem lastColor_drawCircle_white (w h cx cy r px py : Int) (hr : 1 < r)
    (hfit : 0 ≤ cx - r ∧ cx + r < w ∧ 0 ≤ cy - r ∧ cy + r < h)
    (hp : 0 ≤ px ∧ px < w) :
    lastColor (drawCircleWrites w h cx cy r) (px + py * w) = some white ↔
      (-r ≤ px - cx ∧ px - cx ≤ r) ∧ noGap r (px - cx) ∧
        (py = cy + csqrt (r * r - (px - cx) * (px - cx)) ∨
          py = cy + -csqrt (r * r - (px - cx) * (px - cx))) := by
  unfold drawCircleWrites
  have hr1 : ¬ r ≤ 1 := by omega
  simp only [hr1, if_false]
  rw [lastColor_append_eq_some]
  have hC : lastColor (markCenter w h cx cy) (px + py * w) ≠ some white :=
    lastColor_ne_of_colors _ _ _ (fun wr hwr => (markCenter_fields hwr).1)
  rw [lastColor_append_eq_some]
  by_cases hx : -r ≤ px - cx ∧ px - cx ≤ r
  · obtain ⟨hinU, hinL⟩ := perimeter_inFrame w h cx cy r (px - cx) hr hfit hx
    have h0 := csqrt_nonneg (r * r - (px - cx) * (px - cx))
    rw [lastColor_upperPass w h cx cy r px py hp hx,
      lastColor_lowerPass w h cx cy r px py hp hx,
      lastColor_upperColumn_white w h cx cy r (px - cx) px py hinU (by omega),
      lastColor_lowerColumn_white w h cx cy r (px - cx) px py hinL (by omega)]
    constructor
    · rintro ((⟨hy, hg⟩ | ⟨-, hy, hg⟩) | ⟨-, hc⟩)
      · exact ⟨hx, hg, Or.inr hy⟩
      · exact ⟨hx, hg, Or.inl hy⟩
      · exact absurd hc hC
    · rintro ⟨-, hg, hy | hy⟩
      · by_cases hz : csqrt (r * r - (px - cx) * (px - cx)) = 0
        · left; left
          exact ⟨by omega, hg⟩
        · left; right
          refine ⟨?_, hy, hg⟩
          rw [lastColor_eq_none]
          intro wr hwr
          obtain ⟨e1, hok, -, hle⟩ := lowerColumn_fields hwr
          exact hok.idx_ne hp (Or.inr (by omega))
      · left; left
        exact ⟨hy, hg⟩
  · have hU : lastColor (upperPass w h cx cy r) (px + py * w) = none := by
      rw [lastColor_eq_none]
      intro wr hwr
      unfold upperPass at hwr
      rw [mem_forUp_range] at hwr
      obtain ⟨x, h1, h2, hb⟩ := hwr
      obtain ⟨e1, hok, -⟩ := upperColumn_fields hb
      exact hok.idx_ne hp (Or.inl (by omega))
    have hL : lastColor (lowerPass w h cx cy r) (px + py * w) = none := by
      rw [lastColor_eq_none]
      intro wr hwr
      unfold lowerPass at hwr
      rw [mem_forUp_range] at hwr
      obtain ⟨x, h1, h2, hb⟩ := hwr
      obtain ⟨e1, hok, -⟩ := lowerColumn_fields hb
      exact hok.idx_ne hp (Or.inl (by omega))
    rw [hU, hL]
    constructor
    · rintro ((hc | ⟨-, hc⟩) | ⟨-, hc⟩)
      · exact absurd hc (by simp)
      · exact absurd hc (by simp)
      · exact absurd hc hC
    · rintro ⟨hx', -⟩
      exact absurd hx' hx

/-- Apart from the centre mark, every store of `drawCircle` passed a guard on its
own pixel; the centre marks did so when the centre is not in the last column or
row. -/
theorem drawCircleWrites_ok (w h cx cy r : Int) (wr : Write)
    (hwr : wr ∈ drawCircleWrites w h cx cy r) (h1 : cx + 1 < w) (h2 : cy + 1 < h) :
    wr.ok w h := by
  unfold drawCircleWrites at hwr
  rw [List.mem_append] at hwr
  rcases hwr with hwr | hwr
  · exact (markCenter_fields hwr).2 h1 h2
  · split at hwr
    · simp at hwr
    · rw [List.mem_append] at hwr
      rcases hwr with hwr | hwr
      · unfold upperPass at hwr
        rw [mem_forUp] at hwr
        obtain ⟨k, -, hk⟩ := hwr
        exact (upperColumn_fields hk).2.1
      · unfold lowerPass at hwr
        rw [mem_forUp] at hwr
        obtain ⟨k, -, hk⟩ := hwr
        exact (lowerColumn_fields hk).2.1

/-- The white stores of `drawCircle` on a frame containing the circle. -/
theorem white_write_iff (w h cx cy r px py : Int) (hr : 1 < r)
    (hfit : 0 ≤ cx - r ∧ cx + r < w ∧ 0 ≤ cy - r ∧ cy + r < h) :
    (∃ wr ∈ drawCircleWrites w h cx cy r, wr.color = white ∧ wr.x = px ∧ wr.y = py) ↔
      ∃ x : Int, (-r ≤ x ∧ x ≤ r) ∧ px = cx + x ∧
        (py = cy + csqrt (r * r - x * x) ∨ py = cy - csqrt (r * r - x * x)) := by
  constructor
  · rintro ⟨wr, hwr, hc, hx, hy⟩
    rw [mem_drawCircleWrites wr w h cx cy r hr] at hwr
    rcases hwr with hwr | ⟨x, h1, h2, hwr⟩ | ⟨x, h1, h2, hwr⟩
    · exact absurd hc (markCenter_fields hwr).1
    · obtain ⟨e1, -, e3⟩ := upperColumn_fields hwr
      exact ⟨x, ⟨h1, h2⟩, by omega, Or.inl (by have := (e3 hc).1; omega)⟩
    · obtain ⟨e1, -, e3, -⟩ := lowerColumn_fields hwr
      exact ⟨x, ⟨h1, h2⟩, by omega, Or.inr (by have := (e3 hc).1; omega)⟩
  · rintro ⟨x, hx, hpx, hy | hy⟩
    · refine ⟨⟨cx + x, cy + csqrt (r * r - x * x),
        (cx + x) + (cy + csqrt (r * r - x * x)) * w, white⟩, ?_, rfl, hpx.symm, hy.symm⟩
      rw [mem_drawCircleWrites _ w h cx cy r hr]
      right; left
      refine ⟨x, hx.1, hx.2, ?_⟩
      rw [mem_upperColumn]; left
      rw [mem_perimeter]
      exact ⟨(perimeter_inFrame w h cx cy r x hr hfit hx).1, Or.inl rfl⟩
    · refine ⟨⟨cx + x, cy + -csqrt (r * r - x * x),
        (cx + x) + (cy + -csqrt (r * r - x * x)) * w, white⟩, ?_, rfl, hpx.symm, ?_⟩
      · rw [mem_drawCircleWrites _ w h cx cy r hr]
        right; right
        refine ⟨x, hx.1, hx.2, ?_⟩
        rw [mem_lowerColumn]; left
        rw [mem_perimeter]
        exact ⟨(perimeter_inFrame w h cx cy r x hr hfit hx).2, Or.inl rfl⟩
      · show cy + -csqrt (r * r - x * x) = py
        omega

theorem getD_eq_white_iff (o : Option Nat) (d : Nat) (hd : d ≠ white) :
    o.getD d = white ↔ o = some white := by
  cases o with
  | none => simp [hd]
  | some c => simp

theorem Frame.at_ne_white (f : Frame) (hnw : ∀ c ∈ f.pixels, c ≠ white) (x y : Int) :
    f.at x y ≠ white := by
  unfold Frame.at
  rw [List.getD_eq_getElem?_getD]
  cases hq : f.pixels[(x + y * f.width).toNat]? with
  | none =>
    show (0 : Nat) ≠ white
    decide
  | some c => exact hnw c (List.getElem?_mem hq)

/-- On a frame that contains the circle, `drawCircle` runs to the end and each
cell then holds the colour of the last store that hit it, or its old value. -/
theorem drawCircle_run (f : Frame) (cx cy r : Int)
    (hlen : (f.pixels.length : Int) = f.width * f.height)
    (h1 : cx + 1 < f.width) (h2 : cy + 1 < f.height) :
    ∃ g, drawCircle f cx cy r = some g ∧
      ∀ x y : Int, 0 ≤ x + y * f.width →
        g.at x y = (lastColor (drawCircleWrites f.width f.height cx cy r)
          (x + y * f.width)).getD (f.at x y) := by
  obtain ⟨q, hq, -, hqv⟩ := runWrites_spec (drawCircleWrites f.width f.height cx cy r)
    f.pixels (by
      intro wr hwr
      have := (drawCircleWrites_ok _ _ _ _ _ wr hwr h1 h2).idx_range
      omega)
  refine ⟨{ f with pixels := q }, by simp [drawCircle, hq], ?_⟩
  intro x y hxy
  exact hqv _ hxy

/-! ## The apex mark of drawTriangle -/

/-- Only the apex mark of `drawTriangle` is aimed at the apex pixel. -/
theorem drawTriangleWrites_at_apex (w h tx ty s : Int) (wr : Write)
    (hwr : wr ∈ drawTriangleWrites w h tx ty s) (hx : wr.x = tx) (hy : wr.y = ty) :
    wr ∈ markTop w h tx ty := by
  unfold drawTriangleWrites at hwr
  rw [List.mem_append] at hwr
  rcases hwr with hwr | hwr
  · exact hwr
  · exfalso
    split at hwr
    · simp at hwr
    · rename_i hs
      rw [tdiv_two s (by omega)] at hwr
      simp only [List.mem_append, lowerEdge, leftEdge, rightEdge, mem_forUp_range] at hwr
      rcases hwr with (⟨x, h1, h2, hm⟩ | ⟨x, h1, h2, hm⟩) | ⟨x, h1, h2, hm⟩
      · obtain ⟨e1, e2, -⟩ := mem_store_fields hm
        omega
      · obtain ⟨e1, e2, -⟩ := mem_store_fields hm
        omega
      · obtain ⟨e1, e2, -⟩ := mem_store_fields hm
        omega

theorem lastColor_drawTriangle_apex (w h tx ty s : Int) (hin : inFrame w h tx ty) :
    lastColor (drawTriangleWrites w h tx ty s) (tx + ty * w) =
      if 0 < tx ∧ tx < w ∧ 0 < ty ∧ ty < h then some red else none := by
  have hit : ∀ wr ∈ drawTriangleWrites w h tx ty s, wr.idx = tx + ty * w →
      wr ∈ markTop w h tx ty := by
    intro wr hwr hidx
    have hok := drawTriangleWrites_ok w h tx ty s wr hwr
    rw [hok.2.2.2.2] at hidx
    have := idx_inj ⟨hok.1, hok.2.1⟩ ⟨hin.1, hin.2.1⟩ hidx
    exact drawTriangleWrites_at_apex w h tx ty s wr hwr this.1 this.2
  split
  · rename_i hg
    apply lastColor_of_forall
    · refine ⟨⟨tx, ty, tx + ty * w, red⟩, ?_, rfl⟩
      unfold drawTriangleWrites
      apply List.mem_append_left
      unfold markTop
      have hg' : tx > 0 ∧ tx < w ∧ ty > 0 ∧ ty < h := hg
      rw [if_pos hg']
      exact List.mem_singleton.2 rfl
    · intro wr hwr hidx
      exact (mem_markTop_fields (hit wr hwr hidx)).2.2.2.1
  · rename_i hg
    rw [lastColor_eq_none]
    intro wr hwr hidx
    exact hg (mem_markTop_fields (hit wr hwr hidx)).2.2.2.2

/-! ## The animation counters -/

/-- One step of a counter that is incremented and reset to 0 above `n - 1`
advances it modulo `n`. -/
theorem cycle_step (n v j : Int) (hn : 0 < n) (hv : v = j % n) :
    (if v + 1 > n - 1 then 0 else v + 1) = (j + 1) % n := by
  have h0 : 0 ≤ j % n := Int.emod_nonneg j (by omega)
  have h1 : j % n < n := Int.emod_lt_of_pos j hn
  have hstep : (j + 1) % n = (v + 1) % n := by
    rw [hv, Int.emod_add_emod]
  rw [hstep]
  split
  · have : v + 1 = n := by omega
    rw [this, Int.emod_self]
  · rw [Int.emod_eq_of_lt (by omega) (by omega)]

theorem advance_circle_radius (w h : Int) (a : Anim) (rnd : Nat → Int)
    (hw : 0 ≤ w) (hh : 0 ≤ h) :
    (advance w h a rnd).circle_radius =
      if a.circle_radius + 1 > (min w h).tdiv 3 + 1 - 1 then 0 else a.circle_radius + 1 := by
  have e1 : w.tdiv 3 = w / 3 := Int.tdiv_eq_ediv hw (by decide)
  have e2 : h.tdiv 3 = h / 3 := Int.tdiv_eq_ediv hh (by decide)
  have e3 : (min w h).tdiv 3 = min w h / 3 := Int.tdiv_eq_ediv (le_min hw hh) (by decide)
  show (if a.circle_radius + 1 > w.tdiv 3 ∨ a.circle_radius + 1 > h.tdiv 3 then 0
    else a.circle_radius + 1) = _
  rw [e1, e2, e3]
  rcases le_total w h with hle | hle
  · rw [min_eq_left hle]
    split <;> split <;> omega
  · rw [min_eq_right hle]
    split <;> split <;> omega

theorem advance_side_length (w h : Int) (a : Anim) (rnd : Nat → Int) :
    (advance w h a rnd).side_length =
      if a.side_length + 1 > min w h + 1 - 1 then 0 else a.side_length + 1 := by
  show (if a.side_length + 1 > w ∨ a.side_length + 1 > h then 0
    else a.side_length + 1) = _
  rcases le_total w h with hle | hle
  · rw [min_eq_left hle]
    split <;> split <;> omega
  · rw [min_eq_right hle]
    split <;> split <;> omega

theorem advanceN_circle_radius (w h : Int) (rnds : Nat → Nat → Int) (a : Anim)
    (hw : 0 ≤ w) (hh : 0 ≤ h) (ha : a.circle_radius = 0) :
    ∀ k : Nat, (advanceN w h rnds k a).circle_radius = (k : Int) % ((min w h).tdiv 3 + 1)
  | 0 => by
    rw [advanceN, ha]
    simp
  | k + 1 => by
    have hm : 0 ≤ (min w h).tdiv 3 := by
      rw [Int.tdiv_eq_ediv (le_min hw hh) (by decide)]
      have := le_min hw hh
      omega
    rw [advanceN, advance_circle_radius w h _ _ hw hh]
    have := cycle_step ((min w h).tdiv 3 + 1) _ (k : Int) (by omega)
      (advanceN_circle_radius w h rnds a hw hh ha k)
    rw [this]
    push_cast
    rfl

/-- The side length after `t + j` iterations, when it is 0 after `t`. -/
theorem advanceN_side_length_cycle (w h : Int) (rnds : Nat → Nat → Int) (a : Anim)
    (hw : 0 ≤ w) (hh : 0 ≤ h) (t : Nat) (ht : (advanceN w h rnds t a).side_length = 0) :
    ∀ j : Nat, (advanceN w h rnds (t + j) a).side_length = (j : Int) % (min w h + 1)
  | 0 => by
    rw [Nat.add_zero, ht]
    simp
  | j + 1 => by
    have hm : 0 ≤ min w h := le_min hw hh
    have e : t + (j + 1) = (t + j) + 1 := by omega
    rw [e, advanceN, advance_side_length]
    have := cycle_step (min w h + 1) _ (j : Int) (by omega)
      (advanceN_side_length_cycle w h rnds a hw hh t ht j)
    rw [this]
    push_cast
    rfl

/-- The side length while it grows from its initial value. -/
theorem advanceN_side_length_grow (w h : Int) (rnds : Nat → Nat → Int) (a : Anim)
    (s0 : Int) (ha : a.side_length = s0) :
    ∀ k : Nat, s0 + k ≤ min w h → (advanceN w h rnds k a).side_length = s0 + k
  | 0, _ => by
    rw [advanceN, ha]
    simp
  | k + 1, hk => by
    have ih := advanceN_side_length_grow w h rnds a s0 ha k (by push_cast at hk; omega)
    rw [advanceN, advance_side_length, ih]
    push_cast at hk ⊢
    split <;> omega

/-! ## The random fill and the zero-area frame -/

theorem randomFill_eq_map (w h : Int) (rnd : Nat → Int) (hA : w * h ≠ 0) :
    ∀ (n k : Nat), randomFill w h rnd n k =
      (List.range n).map (fun j : Nat =>
        (⟨((rnd (k + 2 * j)).tmod (w * h)).tmod w, ((rnd (k + 2 * j)).tmod (w * h)).tdiv w,
          (rnd (k + 2 * j)).tmod (w * h),
          ((rnd (k + 2 * j + 1)) % 4294967296).toNat⟩ : Write))
  | 0, k => rfl
  | n + 1, k => by
    rw [randomFill, if_neg hA, randomFill_eq_map w h rnd hA n (k + 2),
      List.range_succ_eq_map, List.map_cons, List.map_map]
    simp only [Nat.mul_zero, Nat.add_zero, List.cons.injEq, true_and]
    apply List.map_congr_left
    intro j _
    simp only [Function.comp, Nat.succ_eq_add_one]
    have e : k + 2 + 2 * j = k + 2 * (j + 1) := by omega
    rw [e]

theorem cmod_of_ne (a b : Int) (hb : b ≠ 0) : cmod a b = some (a.tmod b) := by
  unfold cmod
  rw [if_neg hb]

/-- No modulo by zero is evaluated by the random-fill loop. -/
theorem randomFillChecked_eq (w h : Int) (rnd : Nat → Int) :
    ∀ (n k : Nat), randomFillChecked w h rnd n k = some (randomFill w h rnd n k)
  | 0, k => rfl
  | n + 1, k => by
    rw [randomFillChecked, randomFill]
    split
    · rfl
    · rename_i hA
      rw [cmod_of_ne _ _ hA, randomFillChecked_eq w h rnd n (k + 2)]
      rfl

/-- No modulo by zero is evaluated when the apex is re-randomised, and the
result is the apex of `advance`. -/
theorem randomizeTop_eq (w h : Int) (a : Anim) (rnd : Nat → Int) :
    randomizeTop w h rnd =
      some ((advance w h a rnd).triangle_top_x, (advance w h a rnd).triangle_top_y) := by
  unfold randomizeTop
  show _ = some ((if w = 0 ∨ h = 0 then ((0 : Int), (0 : Int))
    else ((rnd 0).tmod w, (rnd 1).tmod h)).1,
    (if w = 0 ∨ h = 0 then ((0 : Int), (0 : Int)) else ((rnd 0).tmod w, (rnd 1).tmod h)).2)
  split
  · rfl
  · rename_i hz
    rw [cmod_of_ne _ _ (fun hw => hz (Or.inl hw)), cmod_of_ne _ _ (fun hh => hz (Or.inr hh))]
    rfl

/-- A store of `drawCircle` needs a frame with positive dimensions. -/
theorem drawCircleWrites_dims (w h cx cy r : Int) (wr : Write)
    (hwr : wr ∈ drawCircleWrites w h cx cy r) : 0 < w ∧ 0 < h := by
  unfold drawCircleWrites at hwr
  rw [List.mem_append] at hwr
  rcases hwr with hwr | hwr
  · unfold markCenter at hwr
    split at hwr
    · rename_i hg
      exact ⟨by omega, by omega⟩
    · simp at hwr
  · split at hwr
    · simp at hwr
    · rw [List.mem_append] at hwr
      rcases hwr with hwr | hwr
      · unfold upperPass at hwr
        rw [mem_forUp] at hwr
        obtain ⟨k, -, hk⟩ := hwr
        have hok := (upperColumn_fields hk).2.1
        exact ⟨by have := hok.1; have := hok.2.1; omega,
          by have := hok.2.2.1; have := hok.2.2.2.1; omega⟩
      · unfold lowerPass at hwr
        rw [mem_forUp] at hwr
        obtain ⟨k, -, hk⟩ := hwr
        have hok := (lowerColumn_fields hk).2.1
        exact ⟨by have := hok.1; have := hok.2.1; omega,
          by have := hok.2.2.1; have := hok.2.2.2.1; omega⟩

theorem drawCircleWrites_zero_area (w h cx cy r : Int) (hz : w = 0 ∨ h = 0) :
    drawCircleWrites w h cx cy r = [] := by
  rw [List.eq_nil_iff_forall_not_mem]
  intro wr hwr
  have := drawCircleWrites_dims w h cx cy r wr hwr
  omega

theorem drawTriangleWrites_zero_area (w h tx ty s : Int) (hz : w = 0 ∨ h = 0) :
    drawTriangleWrites w h tx ty s = [] := by
  rw [List.eq_nil_iff_forall_not_mem]
  intro wr hwr
  have hok := drawTriangleWrites_ok w h tx ty s wr hwr
  have := hok.1
  have := hok.2.1
  have := hok.2.2.1
  have := hok.2.2.2.1
  omega

theorem randomFill_zero_area (w h : Int) (rnd : Nat → Int) (n k : Nat)
    (hz : w = 0 ∨ h = 0) : randomFill w h rnd n k = [] := by
  have hA : w * h = 0 := by
    rcases hz with hz | hz <;> simp [hz]
  cases n with
  | zero => rfl
  | succ n => rw [randomFill, if_pos hA]

/-! ## Stores outside the pixel array -/

/-- A sequence of stores that runs to the end had all its indices inside the
array. -/
theorem runWrites_some_inv (tr : List Write) :
    ∀ (p q : List Nat), runWrites tr p = some q →
      ∀ wr ∈ tr, 0 ≤ wr.idx ∧ wr.idx < p.length := by
  induction tr with
  | nil => intro p q _ wr hwr; simp at hwr
  | cons v rest ih =>
    intro p q hq wr hwr
    simp only [runWrites, writePixel] at hq
    by_cases hv : 0 ≤ v.idx ∧ v.idx < p.length
    · rw [if_pos hv] at hq
      simp only [Option.some_bind] at hq
      rcases List.mem_cons.1 hwr with rfl | hmem
      · exact hv
      · have := ih _ q hq wr hmem
        rw [List.length_set] at this
        exact this
    · rw [if_neg hv] at hq
      simp at hq

theorem runWrites_eq_none_iff (tr : List Write) (p : List Nat) :
    runWrites tr p = none ↔ ∃ wr ∈ tr, ¬ (0 ≤ wr.idx ∧ wr.idx < p.length) := by
  constructor
  · intro hn
    by_contra hc
    obtain ⟨q, hq, -⟩ := runWrites_spec tr p (by
      intro wr hwr
      by_contra hw
      exact hc ⟨wr, hwr, hw⟩)
    rw [hn] at hq
    exact Option.noConfusion hq
  · rintro ⟨wr, hwr, hbad⟩
    cases hq : runWrites tr p with
    | none => rfl
    | some q => exact absurd (runWrites_some_inv tr p q hq wr hwr) hbad

/-- `drawCircle` stores outside `[0, width * height)` exactly when the centre
passes the guard of the centre mark and lies in the last row. -/
theorem drawCircleWrites_out_of_range_iff (w h cx cy r : Int) :
    (∃ wr ∈ drawCircleWrites w h cx cy r, ¬ (0 ≤ wr.idx ∧ wr.idx < w * h)) ↔
      (0 < cx ∧ cx < w ∧ 0 < cy ∧ cy = h - 1) := by
  constructor
  · rintro ⟨wr, hwr, hbad⟩
    unfold drawCircleWrites at hwr
    rw [List.mem_append] at hwr
    rcases hwr with hwr | hwr
    · unfold markCenter at hwr
      split at hwr
      · rename_i hg
        refine ⟨hg.1, hg.2.1, hg.2.2.1, ?_⟩
        by_contra hne
        apply hbad
        have e1 : (cy + 1) * w = cy * w + w := by ring
        have e2 : (cy - 1) * w = cy * w - w := by ring
        have e3 : 1 * w ≤ cy * w := mul_le_mul_of_nonneg_right (by omega) (by omega)
        have e4 : (cy + 2) * w ≤ h * w := mul_le_mul_of_nonneg_right (by omega) (by omega)
        have e5 : (cy + 2) * w = cy * w + 2 * w := by ring
        have e6 : w * h = h * w := mul_comm w h
        simp only [List.mem_cons, List.mem_singleton, List.not_mem_nil, or_false] at hwr
        rcases hwr with rfl | rfl | rfl | rfl | rfl
        · show 0 ≤ cx + cy * w ∧ cx + cy * w < w * h
          omega
        · show 0 ≤ cx + cy * w - 1 ∧ cx + cy * w - 1 < w * h
          omega
        · show 0 ≤ cx + cy * w + 1 ∧ cx + cy * w + 1 < w * h
          omega
        · show 0 ≤ cx + (cy - 1) * w ∧ cx + (cy - 1) * w < w * h
          omega
        · show 0 ≤ cx + (cy + 1) * w ∧ cx + (cy + 1) * w < w * h
          omega
      · simp at hwr
    · exfalso
      apply hbad
      split at hwr
      · simp at hwr
      · rw [List.mem_append] at hwr
        rcases hwr with hwr | hwr
        · unfold upperPass at hwr
          rw [mem_forUp] at hwr
          obtain ⟨k, -, hk⟩ := hwr
          exact (upperColumn_fields hk).2.1.idx_range
        · unfold lowerPass at hwr
          rw [mem_forUp] at hwr
          obtain ⟨k, -, hk⟩ := hwr
          exact (lowerColumn_fields hk).2.1.idx_range
  · rintro ⟨h1, h2, h3, h4⟩
    refine ⟨⟨cx, cy + 1, cx + (cy + 1) * w, green⟩, ?_, ?_⟩
    · unfold drawCircleWrites
      apply List.mem_append_left
      unfold markCenter
      have hg : cx > 0 ∧ cx < w ∧ cy > 0 ∧ cy < h := ⟨h1, h2, h3, by omega⟩
      rw [if_pos hg]
      simp
    · show ¬ (0 ≤ cx + (cy + 1) * w ∧ cx + (cy + 1) * w < w * h)
      have e : (cy + 1) * w = w * h := by rw [h4]; ring
      omega

/-! ## The gap fill and the perimeter pixel -/

/-- For `rand()` values in `0 .. RAND_MAX` no operation of `Rand32()` overflows,
and its value is `a * 2^16 + b * 2 + c mod 2`. -/
theorem Rand32_eq (a b c : Nat) (ha : a ≤ RAND_MAX) (hb : b ≤ RAND_MAX) :
    Rand32 a b c = some ((a : Int) * 65536 + (b : Int) * 2 + ((c % 2 : Nat) : Int)) := by
  unfold RAND_MAX at ha hb
  have e1 : a <<< 16 = a * 65536 := by rw [Nat.shiftLeft_eq]
  have e2 : b <<< 1 = b * 2 := by rw [Nat.shiftLeft_eq]
  have e3 : c &&& 1 = c % 2 := Nat.and_one_is_mod c
  have hc : c % 2 < 2 := Nat.mod_lt _ (by decide)
  unfold Rand32
  rw [e1, e2, e3]
  have i1 : int32 ((a * 65536 : Nat) : Int) = some ((a : Int) * 65536) := by
    unfold int32 INT_MIN INT_MAX
    rw [if_pos (by omega)]
    push_cast
    rfl
  have i2 : int32 ((b * 2 : Nat) : Int) = some ((b : Int) * 2) := by
    unfold int32 INT_MIN INT_MAX
    rw [if_pos (by omega)]
    push_cast
    rfl
  have i3 : int32 ((a : Int) * 65536 + (b : Int) * 2) =
      some ((a : Int) * 65536 + (b : Int) * 2) := by
    unfold int32 INT_MIN INT_MAX
    rw [if_pos (by omega)]
  have i4 : int32 ((a : Int) * 65536 + (b : Int) * 2 + ((c % 2 : Nat) : Int)) =
      some ((a : Int) * 65536 + (b : Int) * 2 + ((c % 2 : Nat) : Int)) := by
    unfold int32 INT_MIN INT_MAX
    rw [if_pos (by omega)]
  rw [i1, Option.some_bind, i2, Option.some_bind, i3, Option.some_bind, i4]

/-- The stores of the random-fill loop with `n` iterations on a frame of area
`w * h > 0`, for `Rand32()` values in `0 .. 2^31 - 1`: there are `n` of them, the
`j`-th goes to index `Rand32() mod (w * h)` inside `[0, w * h)` and stores the
value of the next `Rand32()`. -/
theorem randomFill_stores (w h : Int) (rnd : Nat → Int) (n k0 : Nat) (hA : 0 < w * h)
    (hrnd : ∀ k, 0 ≤ rnd k ∧ rnd k ≤ 2147483647) :
    (randomFill w h rnd n k0).length = n ∧
      (randomFill w h rnd n k0).map (fun wr => (wr.idx, (wr.color : Int))) =
        (List.range n).map (fun j : Nat =>
          ((rnd (k0 + 2 * j)).tmod (w * h), rnd (k0 + 2 * j + 1))) ∧
      (∀ wr ∈ randomFill w h rnd n k0, 0 ≤ wr.idx ∧ wr.idx < w * h) := by
  have hne : w * h ≠ 0 := by omega
  have heq := randomFill_eq_map w h rnd hne n k0
  refine ⟨?_, ?_, ?_⟩
  · rw [heq, List.length_map, List.length_range]
  · rw [heq, List.map_map]
    apply List.map_congr_left
    intro j _
    simp only [Function.comp]
    refine Prod.ext rfl ?_
    have := hrnd (k0 + 2 * j + 1)
    show (((rnd (k0 + 2 * j + 1)) % 4294967296).toNat : Int) = rnd (k0 + 2 * j + 1)
    omega
  · intro wr hwr
    rw [heq, List.mem_map] at hwr
    obtain ⟨j, -, rfl⟩ := hwr
    exact ⟨Int.tmod_nonneg _ (hrnd _).1, Int.tmod_lt_of_pos _ hA⟩

theorem apexDraws_of_area (w h : Int) (hA : 0 < w * h) : apexDraws w h = 2 := by
  unfold apexDraws
  have hz : ¬ (w = 0 ∨ h = 0) := by
    rintro (hz | hz) <;> simp [hz] at hA
  rw [if_neg hz]

/-! ## The claims -/

/-- C1 (defect). `drawCircle(3, 3, 2)` on a 6×4 frame (the state of the main
loop after a 6×6 window is resized to 6×4 between two iterations): the centre
passes the guard `0 < 3 < 6`, `0 < 3 < 4`, and the store for the neighbour below
the centre goes to index `3 + (3 + 1) * 6 = 27`, outside the 24-element pixel
array. -/
theorem drawCircle_center_mark_out_of_range :
    (1 : Int) < 2 ∧
      (⟨3, 4, 27, green⟩ : Write) ∈ drawCircleWrites 6 4 3 3 2 ∧
      ¬ ((27 : Int) < 6 * 4) ∧
      drawCircle ⟨6, 4, List.replicate 24 0⟩ 3 3 2 = none := by
  decide

/-- C2 (defect). The first iteration of the main loop on a 2×2 frame, whatever
the generator returns: the circle centre is `(2/2, 2/2) = (1, 1)`, and the
centre mark of `drawCircle` stores to index 5 of a four-element array. -/
theorem tick_out_of_range_on_2x2 (rnd : Nat → Int) :
    (initialAnim 2 2).circle_center_x = (2 : Int).tdiv 2 ∧
      (initialAnim 2 2).circle_center_y = (2 : Int).tdiv 2 ∧
      (⟨1, 2, 5, green⟩ : Write) ∈ tickWrites 2 2 (initialAnim 2 2) rnd ∧
      ¬ ((5 : Int) < 2 * 2) ∧
      tick ⟨2, 2, [0, 0, 0, 0]⟩ (initialAnim 2 2) rnd = none := by
  have hc : drawCircleWrites 2 2 1 1 0 =
      [⟨1, 1, 3, red⟩, ⟨0, 1, 2, green⟩, ⟨2, 1, 4, green⟩, ⟨1, 0, 1, green⟩,
        ⟨1, 2, 5, green⟩] := by decide
  have hr : runWrites (drawCircleWrites 2 2 1 1 0) [0, 0, 0, 0] = none := by decide
  have ha : initialAnim 2 2 = ⟨0, 1, 1, 100, 1, 1⟩ := by decide
  refine ⟨rfl, rfl, ?_, by decide, ?_⟩
  · rw [ha]
    simp only [tickWrites]
    rw [hc]
    simp
  · rw [ha]
    simp only [tick, tickWrites, runWrites_append, hr]
    rfl

/-- C3. Every store performed by `drawTriangle` (apex mark, base, left edge,
right edge) is aimed at a pixel `(x, y)` with `0 ≤ x < width` and
`0 ≤ y < height`, goes to that pixel's own index `x + y * width`, and that
index lies inside `[0, width * height)`. -/
theorem drawTriangle_writes_in_bounds (w h tx ty s : Int) (wr : Write)
    (hwr : wr ∈ drawTriangleWrites w h tx ty s) :
    (0 ≤ wr.x ∧ wr.x < w) ∧ (0 ≤ wr.y ∧ wr.y < h) ∧ wr.idx = wr.x + wr.y * w ∧
      0 ≤ wr.idx ∧ wr.idx < w * h := by
  have hok := drawTriangleWrites_ok w h tx ty s wr hwr
  have hr := hok.idx_range
  obtain ⟨h1, h2, h3, h4, h5⟩ := hok
  exact ⟨⟨h1, h2⟩, ⟨h3, h4⟩, h5, hr.1, hr.2⟩

/-- C3 at a concrete store: the first left-edge store of `drawTriangle(5, 5, 2)`
on a 10×10 frame. -/
theorem drawTriangle_writes_in_bounds_witness :
    (⟨4, 5, 54, white⟩ : Write) ∈ drawTriangleWrites 10 10 5 5 2 ∧
      ((0 ≤ (4 : Int) ∧ (4 : Int) < 10) ∧ (0 ≤ (5 : Int) ∧ (5 : Int) < 10) ∧
        (54 : Int) = 4 + 5 * 10 ∧ 0 ≤ (54 : Int) ∧ (54 : Int) < 10 * 10) :=
  ⟨by decide, drawTriangle_writes_in_bounds 10 10 5 5 2 ⟨4, 5, 54, white⟩ (by decide)⟩

/-- C4 (defect). `drawCircle(1, 2, 0)` on an all-zero 2×4 frame (the centre the
main loop uses for that frame): the centre `(1, 2)` passes the guard, and the
store for the right neighbour goes to index `1 + 2 * 2 + 1 = 6`, which is pixel
`(0, 3)`: a pixel that is none of `(1,2)`, `(0,2)`, `(2,2)`, `(1,1)`, `(1,3)` is
changed. -/
theorem drawCircle_small_radius_wraps_row :
    ((2 : Int).tdiv 2, (4 : Int).tdiv 2) = (1, 2) ∧
      drawCircle ⟨2, 4, [0, 0, 0, 0, 0, 0, 0, 0]⟩ 1 2 0 =
        some ⟨2, 4, [0, 0, 0, green, green, red, green, green]⟩ ∧
      (⟨2, 4, [0, 0, 0, green, green, red, green, green]⟩ : Frame).at 0 3 = green ∧
      (⟨2, 4, [0, 0, 0, 0, 0, 0, 0, 0]⟩ : Frame).at 0 3 = 0 ∧
      ((0 : Int), (3 : Int)) ∉ [((1 : Int), (2 : Int)), (0, 2), (2, 2), (1, 1), (1, 3)] := by
  decide

/-- C5 (as stated, refuted). After `drawCircle(2, 2, 3)` on an all-zero 4×4
frame the indices 2, 12, 13 and 15 are not blue: they still hold 0. -/
theorem drawCircle_4x4_claimed_blue_absent :
    ∃ g, drawCircle ⟨4, 4, List.replicate 16 0⟩ 2 2 3 = some g ∧
      g.pixels.getD 2 0 ≠ blue ∧ g.pixels.getD 12 0 ≠ blue ∧
      g.pixels.getD 13 0 ≠ blue ∧ g.pixels.getD 15 0 ≠ blue :=
  ⟨⟨4, 4, [white, green, 0, green, blue, blue, green, blue, 0, green, red, green, 0, 0,
    green, 0]⟩, by decide, by decide, by decide, by decide, by decide⟩

/-- C5 (amended). On an all-zero 4×4 frame, `drawCircle(2, 2, 3)` leaves index
0 white, indices 1 and 3 green, indices 4, 5, 7 blue, indices 6, 9, 11, 14
green, index 10 red and indices 2, 8, 12, 13, 15 zero; every store it performs
has its index in `0 .. 15`. -/
theorem drawCircle_4x4_scenario :
    drawCircle ⟨4, 4, List.replicate 16 0⟩ 2 2 3 =
        some ⟨4, 4, [white, green, 0, green, blue, blue, green, blue, 0, green, red, green,
          0, 0, green, 0]⟩ ∧
      ∀ wr ∈ drawCircleWrites 4 4 2 2 3, 0 ≤ wr.idx ∧ wr.idx < 16 := by
  decide

/-- C6 (as stated, refuted). `drawCircle(2, 2, 3)` on a 4×4 frame, column
offset `x = 0`, lower pass: the perimeter row offset is `-3`, the blue pixel
`(2 + 0, 2 + (-3) + 1) = (2, 0)` lies inside the frame, and no store of the
call writes blue to it (nor writes to its index 2 at all). -/
theorem drawCircle_blue_not_independent :
    (1 : Int) < 3 ∧ (-3 : Int) ≤ 0 ∧ (0 : Int) ≤ 3 ∧
      -csqrt (3 * 3 - 0 * 0) = -3 ∧
      inFrame 4 4 (2 + 0) (2 + (-3) + 1) ∧
      ¬ inFrame 4 4 (2 + 0) (2 + (-3)) ∧
      ∀ wr ∈ drawCircleWrites 4 4 2 2 3,
        ¬ (wr.x = 2 + 0 ∧ wr.y = 2 + (-3) + 1 ∧ wr.color = blue) ∧ wr.idx ≠ 2 := by
  decide

/-- C6 (amended). For radius `r > 1`, column offset `x ∈ [-r, r]` and `y` the
perimeter row offset of the column in either pass (`⌊√(r² - x²)⌋` or its
negation): when the perimeter pixel `(cx + x, cy + y)` lies inside the frame,
each of the two blue pixels `(cx + x, cy + y - 1)` and `(cx + x, cy + y + 1)`
that lies inside the frame receives a blue store; when the perimeter pixel lies
outside the frame, the column's loop body performs no blue store in that pass. -/
theorem drawCircle_blue_writes (w h cx cy r x : Int) (hr : 1 < r)
    (hx : -r ≤ x ∧ x ≤ r) :
    (∀ y : Int, (y = csqrt (r * r - x * x) ∨ y = -csqrt (r * r - x * x)) →
      inFrame w h (cx + x) (cy + y) →
        (inFrame w h (cx + x) (cy + y - 1) →
          (⟨cx + x, cy + y - 1, (cx + x) + (cy + y - 1) * w, blue⟩ : Write) ∈
            drawCircleWrites w h cx cy r) ∧
        (inFrame w h (cx + x) (cy + y + 1) →
          (⟨cx + x, cy + y + 1, (cx + x) + (cy + y + 1) * w, blue⟩ : Write) ∈
            drawCircleWrites w h cx cy r)) ∧
      (¬ inFrame w h (cx + x) (cy + csqrt (r * r - x * x)) →
        ∀ wr ∈ upperColumn w h cx cy r x, wr.color ≠ blue) ∧
      (¬ inFrame w h (cx + x) (cy + -csqrt (r * r - x * x)) →
        ∀ wr ∈ lowerColumn w h cx cy r x, wr.color ≠ blue) := by
  refine ⟨?_, ?_, ?_⟩
  · intro y hy hp
    have key : ∀ wr : Write, wr ∈ perimeter w h cx cy x y →
        wr ∈ drawCircleWrites w h cx cy r := by
      intro wr hwr
      rw [mem_drawCircleWrites wr w h cx cy r hr]
      rcases hy with hy | hy
      · right; left
        refine ⟨x, hx.1, hx.2, ?_⟩
        rw [mem_upperColumn]; left; rw [← hy]; exact hwr
      · right; right
        refine ⟨x, hx.1, hx.2, ?_⟩
        rw [mem_lowerColumn]; left; rw [← hy]; exact hwr
    constructor
    · intro hb
      apply key
      rw [mem_perimeter]
      exact ⟨hp, Or.inr (Or.inl ⟨hb, rfl⟩)⟩
    · intro hb
      apply key
      rw [mem_perimeter]
      exact ⟨hp, Or.inr (Or.inr ⟨hb, rfl⟩)⟩
  · intro hp wr hwr
    rw [mem_upperColumn] at hwr
    rcases hwr with hwr | ⟨-, hwr⟩ | ⟨-, hwr⟩
    · rw [mem_perimeter] at hwr
      exact absurd hwr.1 hp
    · rw [mem_forUp] at hwr
      obtain ⟨k, -, hk⟩ := hwr
      rw [gapStore_color _ _ _ _ _ _ wr hk]
      exact green_ne_blue
    · rw [mem_forUp] at hwr
      obtain ⟨k, -, hk⟩ := hwr
      rw [gapStore_color _ _ _ _ _ _ wr hk]
      exact green_ne_blue
  · intro hp wr hwr
    rw [mem_lowerColumn] at hwr
    rcases hwr with hwr | ⟨-, hwr⟩ | ⟨-, hwr⟩
    · rw [mem_perimeter] at hwr
      exact absurd hwr.1 hp
    · rw [mem_forDown] at hwr
      obtain ⟨k, -, hk⟩ := hwr
      rw [gapStore_color _ _ _ _ _ _ wr hk]
      exact green_ne_blue
    · rw [mem_forDown] at hwr
      obtain ⟨k, -, hk⟩ := hwr
      rw [gapStore_color _ _ _ _ _ _ wr hk]
      exact green_ne_blue

/-- C6 (amended) at a concrete input: radius 2, centre `(2, 2)`, column offset 1,
upper pass, on a 5×5 frame. -/
theorem drawCircle_blue_writes_witness :
    ((1 : Int) < 2 ∧ ((-2 : Int) ≤ 1 ∧ (1 : Int) ≤ 2)) ∧
      ((⟨2 + 1, 2 + 1 - 1, (2 + 1) + (2 + 1 - 1) * 5, blue⟩ : Write) ∈
        drawCircleWrites 5 5 2 2 2) :=
  ⟨by decide,
    ((drawCircle_blue_writes 5 5 2 2 2 1 (by decide) (by decide)).1 1
      (Or.inl (by decide)) (by decide)).1 (by decide)⟩

/-- C7. For radius `r > 1` and column offset `x ∈ [-r, r]`, with
`y = csqrt (r² - x²)` the floor of the square root: the white store of the upper
pass is aimed at `(cx + x, cy + y)` and the white store of the lower pass at
`(cx + x, cy - y)`, each performed iff that pixel is inside the frame.  On a
frame that contains the whole circle, a pixel receives a white store iff its
mirror image `(px, 2 * cy - py)` does; and if the pixel array has no white cell
before the call, `drawCircle` runs to the end and a pixel of the frame is white
afterwards iff its mirror image is a pixel of the frame and is white. -/
theorem drawCircle_mirror (f : Frame) (cx cy r : Int) (hr : 1 < r) :
    (∀ x : Int, -r ≤ x → x ≤ r →
      (0 ≤ csqrt (r * r - x * x) ∧
        csqrt (r * r - x * x) * csqrt (r * r - x * x) ≤ r * r - x * x ∧
        r * r - x * x < (csqrt (r * r - x * x) + 1) * (csqrt (r * r - x * x) + 1)) ∧
      (∀ wr ∈ upperColumn f.width f.height cx cy r x, wr.color = white →
        wr.x = cx + x ∧ wr.y = cy + csqrt (r * r - x * x)) ∧
      (∀ wr ∈ lowerColumn f.width f.height cx cy r x, wr.color = white →
        wr.x = cx + x ∧ wr.y = cy - csqrt (r * r - x * x)) ∧
      ((∃ wr ∈ upperColumn f.width f.height cx cy r x, wr.color = white) ↔
        inFrame f.width f.height (cx + x) (cy + csqrt (r * r - x * x))) ∧
      ((∃ wr ∈ lowerColumn f.width f.height cx cy r x, wr.color = white) ↔
        inFrame f.width f.height (cx + x) (cy - csqrt (r * r - x * x)))) ∧
    ((0 ≤ cx - r ∧ cx + r < f.width ∧ 0 ≤ cy - r ∧ cy + r < f.height) →
      (∀ px py : Int,
        (∃ wr ∈ drawCircleWrites f.width f.height cx cy r,
            wr.color = white ∧ wr.x = px ∧ wr.y = py) ↔
          (∃ wr ∈ drawCircleWrites f.width f.height cx cy r,
            wr.color = white ∧ wr.x = px ∧ wr.y = 2 * cy - py)) ∧
      ((f.pixels.length : Int) = f.width * f.height → (∀ c ∈ f.pixels, c ≠ white) →
        ∃ g, drawCircle f cx cy r = some g ∧
          ∀ px py : Int, inFrame f.width f.height px py →
            (g.at px py = white ↔
              (inFrame f.width f.height px (2 * cy - py) ∧
                g.at px (2 * cy - py) = white)))) := by
  constructor
  · intro x hx1 hx2
    have hn : 0 ≤ r * r - x * x := by nlinarith
    have hsub : cy - csqrt (r * r - x * x) = cy + -csqrt (r * r - x * x) := by ring
    refine ⟨⟨csqrt_nonneg _, (csqrt_spec _ hn).1, (csqrt_spec _ hn).2⟩, ?_, ?_, ?_, ?_⟩
    · intro wr hwr hc
      obtain ⟨e1, -, e3⟩ := upperColumn_fields hwr
      exact ⟨e1, (e3 hc).1⟩
    · intro wr hwr hc
      obtain ⟨e1, -, e3, -⟩ := lowerColumn_fields hwr
      exact ⟨e1, by rw [hsub]; exact (e3 hc).1⟩
    · constructor
      · rintro ⟨wr, hwr, hc⟩
        exact ((upperColumn_fields hwr).2.2 hc).2
      · intro hin
        refine ⟨⟨cx + x, cy + csqrt (r * r - x * x),
          (cx + x) + (cy + csqrt (r * r - x * x)) * f.width, white⟩, ?_, rfl⟩
        rw [mem_upperColumn]; left
        rw [mem_perimeter]
        exact ⟨hin, Or.inl rfl⟩
    · rw [hsub]
      constructor
      · rintro ⟨wr, hwr, hc⟩
        exact ((lowerColumn_fields hwr).2.2.1 hc).2
      · intro hin
        refine ⟨⟨cx + x, cy + -csqrt (r * r - x * x),
          (cx + x) + (cy + -csqrt (r * r - x * x)) * f.width, white⟩, ?_, rfl⟩
        rw [mem_lowerColumn]; left
        rw [mem_perimeter]
        exact ⟨hin, Or.inl rfl⟩
  · intro hfit
    constructor
    · intro px py
      rw [white_write_iff f.width f.height cx cy r px py hr hfit,
        white_write_iff f.width f.height cx cy r px (2 * cy - py) hr hfit]
      constructor
      · rintro ⟨x, hx, hpx, hy⟩
        exact ⟨x, hx, hpx, by omega⟩
      · rintro ⟨x, hx, hpx, hy⟩
        exact ⟨x, hx, hpx, by omega⟩
    · intro hlen hnw
      obtain ⟨g, hg, hgv⟩ := drawCircle_run f cx cy r hlen (by omega) (by omega)
      refine ⟨g, hg, ?_⟩
      have key : ∀ px py : Int, inFrame f.width f.height px py →
          (g.at px py = white ↔
            (-r ≤ px - cx ∧ px - cx ≤ r) ∧ noGap r (px - cx) ∧
              (py = cy + csqrt (r * r - (px - cx) * (px - cx)) ∨
                py = cy + -csqrt (r * r - (px - cx) * (px - cx)))) := by
        intro px py hp
        have hnn : 0 ≤ px + py * f.width := by
          have : 0 ≤ py * f.width :=
            mul_nonneg hp.2.2.1 (by have := hp.1; have := hp.2.1; omega)
          have := hp.1
          omega
        rw [hgv px py hnn, getD_eq_white_iff _ _ (f.at_ne_white hnw _ _),
          lastColor_drawCircle_white f.width f.height cx cy r px py hr hfit ⟨hp.1, hp.2.1⟩]
      intro px py hp
      constructor
      · intro hw
        obtain ⟨hx, hgap, hy⟩ := (key px py hp).1 hw
        obtain ⟨hU, hL⟩ := perimeter_inFrame f.width f.height cx cy r (px - cx) hr hfit hx
        have hq : inFrame f.width f.height px (2 * cy - py) := by
          unfold inFrame at hU hL ⊢
          refine ⟨hp.1, hp.2.1, ?_, ?_⟩ <;> omega
        exact ⟨hq, (key px (2 * cy - py) hq).2 ⟨hx, hgap, by omega⟩⟩
      · rintro ⟨hq, hw⟩
        obtain ⟨hx, hgap, hy⟩ := (key px (2 * cy - py) hq).1 hw
        exact (key px py hp).2 ⟨hx, hgap, by omega⟩

/-- C7 at a concrete input: radius 2, centre `(2, 2)`, on an all-zero 5×5 frame. -/
theorem drawCircle_mirror_witness :
    ((∃ wr ∈ drawCircleWrites 5 5 2 2 2, wr.color = white ∧ wr.x = 3 ∧ wr.y = 3) ↔
      (∃ wr ∈ drawCircleWrites 5 5 2 2 2, wr.color = white ∧ wr.x = 3 ∧ wr.y = 2 * 2 - 3)) ∧
    ∃ g, drawCircle ⟨5, 5, List.replicate 25 0⟩ 2 2 2 = some g ∧
      ∀ px py : Int, inFrame 5 5 px py →
        (g.at px py = white ↔ (inFrame 5 5 px (2 * 2 - py) ∧ g.at px (2 * 2 - py) = white)) :=
  have h := (drawCircle_mirror ⟨5, 5, List.replicate 25 0⟩ 2 2 2 (by decide)).2 (by decide)
  ⟨h.1 3 3, h.2 (by decide) (by decide)⟩


/-- C8. For `side_length = s > 1`, when the row `top_y - s/2` and the columns
`top_x - s/2 .. top_x - s/2 + s` lie inside the frame, `drawTriangle` runs to
the end, afterwards the `s + 1` pixels `(x, top_y - s/2)` with
`top_x - s/2 ≤ x ≤ top_x - s/2 + s` are white, and every store of the call that
is aimed at that row is a white store into one of these columns. -/
theorem drawTriangle_base_row (f : Frame) (tx ty s : Int) (hs : 1 < s)
    (hlen : (f.pixels.length : Int) = f.width * f.height)
    (hrow : 0 ≤ ty - s.tdiv 2 ∧ ty - s.tdiv 2 < f.height)
    (hcol : 0 ≤ tx - s.tdiv 2 ∧ tx - s.tdiv 2 + s < f.width) :
    ∃ g, drawTriangle f tx ty s = some g ∧
      (∀ x : Int, tx - s.tdiv 2 ≤ x → x ≤ tx - s.tdiv 2 + s →
        g.at x (ty - s.tdiv 2) = white) ∧
      (∀ wr ∈ drawTriangleWrites f.width f.height tx ty s, wr.y = ty - s.tdiv 2 →
        wr.color = white ∧ tx - s.tdiv 2 ≤ wr.x ∧ wr.x ≤ tx - s.tdiv 2 + s) ∧
      (∀ wr ∈ drawTriangleWrites f.width f.height tx ty s,
        wr.idx = wr.x + wr.y * f.width ∧ 0 ≤ wr.x ∧ wr.x < f.width) := by
  rw [tdiv_two s (by omega)] at *
  obtain ⟨g, hg, -, -, hgv⟩ := drawTriangle_run f tx ty s hlen
  refine ⟨g, hg, ?_, ?_, ?_⟩
  · intro x hx1 hx2
    have hnn : 0 ≤ x + (ty - s / 2) * f.width := by
      have : 0 ≤ (ty - s / 2) * f.width := mul_nonneg hrow.1 (by omega)
      omega
    rw [hgv x _ hnn]
    have hlast : lastColor (drawTriangleWrites f.width f.height tx ty s)
        (x + (ty - s / 2) * f.width) = some white := by
      apply lastColor_of_forall
      · exact ⟨_, mem_lowerEdge f.width f.height tx ty s x hs ⟨hx1, hx2⟩
          ⟨by omega, by omega, hrow.1, hrow.2⟩, rfl⟩
      · intro wr hwr hidx
        have hok := drawTriangleWrites_ok _ _ _ _ _ wr hwr
        rcases drawTriangleWrites_cases _ _ _ _ _ hs wr hwr with
          ⟨-, e2, -⟩ | ⟨e, -⟩ | ⟨e, -⟩ | ⟨e, -⟩
        · exfalso
          rw [hok.2.2.2.2] at hidx
          have := (idx_inj ⟨hok.1, hok.2.1⟩ ⟨by omega, by omega⟩ hidx).2
          omega
        · exact e
        · exact e
        · exact e
    rw [hlast]
    rfl
  · intro wr hwr hy
    rcases drawTriangleWrites_cases _ _ _ _ _ hs wr hwr with
      ⟨-, e2, -⟩ | ⟨e, -, h1, h2⟩ | ⟨e, h1, h2, h3⟩ | ⟨e, h1, h2, h3⟩
    · omega
    · exact ⟨e, h1, h2⟩
    · omega
    · omega
  · intro wr hwr
    have hok := drawTriangleWrites_ok _ _ _ _ _ wr hwr
    exact ⟨hok.2.2.2.2, hok.1, hok.2.1⟩

/-- C8 at a concrete input: `drawTriangle(2, 2, 2)` on an all-zero 4×4 frame. -/
theorem drawTriangle_base_row_witness :
    ∃ g, drawTriangle ⟨4, 4, List.replicate 16 0⟩ 2 2 2 = some g ∧
      (∀ x : Int, 2 - (2 : Int).tdiv 2 ≤ x → x ≤ 2 - (2 : Int).tdiv 2 + 2 →
        g.at x (2 - (2 : Int).tdiv 2) = white) ∧
      (∀ wr ∈ drawTriangleWrites 4 4 2 2 2, wr.y = 2 - (2 : Int).tdiv 2 →
        wr.color = white ∧ 2 - (2 : Int).tdiv 2 ≤ wr.x ∧
          wr.x ≤ 2 - (2 : Int).tdiv 2 + 2) ∧
      (∀ wr ∈ drawTriangleWrites 4 4 2 2 2,
        wr.idx = wr.x + wr.y * 4 ∧ 0 ≤ wr.x ∧ wr.x < 4) :=
  drawTriangle_base_row ⟨4, 4, List.replicate 16 0⟩ 2 2 2 (by decide) (by decide)
    (by decide) (by decide)

/-- C9 (as stated, refuted). `drawTriangle(3, 3, 2)` on an all-zero 6×6 frame
(the triangle lies inside it): the left-edge loop aims at `(2, 3)` and `(3, 4)`,
so its run ends at `(3, 4)` and not at the apex pixel `(3, 3)`, which is red
afterwards. -/
theorem drawTriangle_left_edge_misses_apex :
    leftEdgeTargets 3 3 2 = [(2, 3), (3, 4)] ∧
      ((3 : Int), (3 : Int)) ∉ leftEdgeTargets 3 3 2 ∧
      (drawTriangle ⟨6, 6, List.replicate 36 0⟩ 3 3 2).map (fun g => g.at 3 3) = some red ∧
      (drawTriangle ⟨6, 6, List.replicate 36 0⟩ 3 3 2).map (fun g => g.at 3 4) =
        some white := by
  decide

/-- C9 (amended). For `side_length = s > 1`, `left_x = top_x - s/2`,
`base_y = top_y - s/2`, and a frame containing the columns `left_x .. left_x + s`
and the rows `base_y .. top_y + 1`: the left-edge pixels are
`(left_x + k, base_y + 1 + k)` for `k = 0 .. s/2`, a run of slope `+1` from
`(left_x, base_y + 1)` to `(top_x, top_y + 1)`; the right-edge pixels are
`(top_x + 1 + k, top_y + s mod 2 - k)` for `k = 0 .. s - s/2 - 1`, a run of slope
`-1` from column `top_x + 1` to `(left_x + s, base_y + 1)`; and all of them are
white after `drawTriangle`. -/
theorem drawTriangle_edges (f : Frame) (tx ty s : Int) (hs : 1 < s)
    (hlen : (f.pixels.length : Int) = f.width * f.height)
    (hcol : 0 ≤ tx - s.tdiv 2 ∧ tx - s.tdiv 2 + s < f.width)
    (hrow : 0 ≤ ty - s.tdiv 2 ∧ ty + 1 < f.height) :
    leftEdgeTargets tx ty s =
        (List.range (s.tdiv 2 + 1).toNat).map
          (fun k : Nat => (tx - s.tdiv 2 + k, ty - s.tdiv 2 + 1 + k)) ∧
      (leftEdgeTargets tx ty s).head? = some (tx - s.tdiv 2, ty - s.tdiv 2 + 1) ∧
      (leftEdgeTargets tx ty s).getLast? = some (tx, ty + 1) ∧
      rightEdgeTargets tx ty s =
        (List.range (s - s.tdiv 2).toNat).map
          (fun k : Nat => (tx + 1 + k, ty + s.tmod 2 - k)) ∧
      (rightEdgeTargets tx ty s).head? = some (tx + 1, ty + s.tmod 2) ∧
      (rightEdgeTargets tx ty s).getLast? = some (tx - s.tdiv 2 + s, ty - s.tdiv 2 + 1) ∧
      ∃ g, drawTriangle f tx ty s = some g ∧
        ∀ p ∈ leftEdgeTargets tx ty s ++ rightEdgeTargets tx ty s, g.at p.1 p.2 = white := by
  have hd := tdiv_two s (by omega)
  have hm := tmod_two s (by omega)
  refine ⟨leftEdgeTargets_eq tx ty s, ?_, ?_, rightEdgeTargets_eq tx ty s hs, ?_, ?_, ?_⟩
  · rw [leftEdgeTargets_eq tx ty s, List.head?_map, List.head?_range]
    have : (s.tdiv 2 + 1).toNat ≠ 0 := by omega
    simp [this]
  · rw [leftEdgeTargets_eq tx ty s, List.getLast?_map, List.getLast?_range]
    have : (s.tdiv 2 + 1).toNat ≠ 0 := by omega
    simp only [this, if_false, Option.map_some', Option.some.injEq]
    refine Prod.ext ?_ ?_
    · show tx - s.tdiv 2 + (((s.tdiv 2 + 1).toNat - 1 : Nat) : Int) = tx
      omega
    · show ty - s.tdiv 2 + 1 + (((s.tdiv 2 + 1).toNat - 1 : Nat) : Int) = ty + 1
      omega
  · rw [rightEdgeTargets_eq tx ty s hs, List.head?_map, List.head?_range]
    have : (s - s.tdiv 2).toNat ≠ 0 := by omega
    simp [this]
  · rw [rightEdgeTargets_eq tx ty s hs, List.getLast?_map, List.getLast?_range]
    have : (s - s.tdiv 2).toNat ≠ 0 := by omega
    simp only [this, if_false, Option.map_some', Option.some.injEq]
    refine Prod.ext ?_ ?_
    · show tx + 1 + (((s - s.tdiv 2).toNat - 1 : Nat) : Int) = tx - s.tdiv 2 + s
      omega
    · show ty + s.tmod 2 - (((s - s.tdiv 2).toNat - 1 : Nat) : Int) = ty - s.tdiv 2 + 1
      omega
  · rw [hd] at hcol hrow
    obtain ⟨g, hg, -, -, hgv⟩ := drawTriangle_run f tx ty s hlen
    refine ⟨g, hg, ?_⟩
    intro p hp
    have hwhite : ∀ wr ∈ drawTriangleWrites f.width f.height tx ty s,
        wr.idx = p.1 + p.2 * f.width → (0 ≤ p.1 ∧ p.1 < f.width) →
        (p.1 = tx → p.2 ≠ ty) → wr.color = white := by
      intro wr hwr hidx hp1 hne
      have hok := drawTriangleWrites_ok _ _ _ _ _ wr hwr
      rcases drawTriangleWrites_cases _ _ _ _ _ hs wr hwr with
        ⟨e1, e2, -⟩ | ⟨e, -⟩ | ⟨e, -⟩ | ⟨e, -⟩
      · exfalso
        rw [hok.2.2.2.2] at hidx
        have := idx_inj ⟨hok.1, hok.2.1⟩ hp1 hidx
        exact hne (by omega) (by omega)
      · exact e
      · exact e
      · exact e
    rw [List.mem_append] at hp
    rcases hp with hp | hp
    · rw [mem_leftEdgeTargets tx ty s hs] at hp
      obtain ⟨h1, h2, h3⟩ := hp
      have hin : inFrame f.width f.height p.1 (ty - s / 2 + (p.1 - (tx - s / 2)) + 1) :=
        ⟨by omega, by omega, by omega, by omega⟩
      have hnn : 0 ≤ p.1 + p.2 * f.width := by
        have : 0 ≤ p.2 * f.width := mul_nonneg (by omega) (by omega)
        omega
      rw [hgv _ _ hnn]
      have hlast : lastColor (drawTriangleWrites f.width f.height tx ty s)
          (p.1 + p.2 * f.width) = some white := by
        apply lastColor_of_forall
        · obtain ⟨wr, hwr, -, hidx⟩ := mem_leftEdge f.width f.height tx ty s p.1 hs ⟨h1, h2⟩ hin
          exact ⟨wr, hwr, by rw [hidx, h3]⟩
        · intro wr hwr hidx
          exact hwhite wr hwr hidx ⟨by omega, by omega⟩ (by omega)
      rw [hlast]
      rfl
    · rw [mem_rightEdgeTargets tx ty s hs] at hp
      obtain ⟨h1, h2, h3⟩ := hp
      have hin : inFrame f.width f.height p.1 (ty - s / 2 + (tx - s / 2 + s - p.1) + 1) :=
        ⟨by omega, by omega, by omega, by omega⟩
      have hnn : 0 ≤ p.1 + p.2 * f.width := by
        have : 0 ≤ p.2 * f.width := mul_nonneg (by omega) (by omega)
        omega
      rw [hgv _ _ hnn]
      have hlast : lastColor (drawTriangleWrites f.width f.height tx ty s)
          (p.1 + p.2 * f.width) = some white := by
        apply lastColor_of_forall
        · obtain ⟨wr, hwr, -, hidx⟩ := mem_rightEdge f.width f.height tx ty s p.1 hs ⟨h1, h2⟩ hin
          exact ⟨wr, hwr, by rw [hidx, h3]⟩
        · intro wr hwr hidx
          exact hwhite wr hwr hidx ⟨by omega, by omega⟩ (by omega)
      rw [hlast]
      rfl

/-- C9 (amended) at a concrete input: `drawTriangle(3, 3, 2)` on an all-zero 6×6
frame. -/
theorem drawTriangle_edges_witness :
    (leftEdgeTargets 3 3 2).getLast? = some (3, 3 + 1) ∧
      ∃ g, drawTriangle ⟨6, 6, List.replicate 36 0⟩ 3 3 2 = some g ∧
        ∀ p ∈ leftEdgeTargets 3 3 2 ++ rightEdgeTargets 3 3 2, g.at p.1 p.2 = white :=
  have h := drawTriangle_edges ⟨6, 6, List.replicate 36 0⟩ 3 3 2 (by decide) (by decide)
    (by decide) (by decide)
  ⟨h.2.2.1, h.2.2.2.2.2.2⟩

/-- C10 (as stated, refuted). For apex `(5, 5)` and `side_length = 3`, `(5 - 1, 5)`
is a left-edge target and `(5 + 1, 5)` is not a right-edge target. -/
theorem triangle_edges_not_mirrored_odd :
    (1 : Int) < 3 ∧ ((5 : Int) - 1, (5 : Int)) ∈ leftEdgeTargets 5 5 3 ∧
      ((5 : Int) + 1, (5 : Int)) ∉ rightEdgeTargets 5 5 3 := by
  decide

/-- C10 (amended). For every even `side_length = s > 1`, every `j ≥ 1` and every
row `y`, `(top_x - j, y)` is a left-edge target iff `(top_x + j, y)` is a
right-edge target.  For every `s > 1` (odd ones included), `(top_x - j, y)` is a
left-edge target iff `j ≤ s/2` and `(top_x + j, y + s mod 2)` is a right-edge
target. -/
theorem triangle_edges_mirror (tx ty s j y : Int) (hs : 1 < s) (hj : 1 ≤ j) :
    (s.tmod 2 = 0 →
      ((tx - j, y) ∈ leftEdgeTargets tx ty s ↔ (tx + j, y) ∈ rightEdgeTargets tx ty s)) ∧
      ((tx - j, y) ∈ leftEdgeTargets tx ty s ↔
        (j ≤ s.tdiv 2 ∧ (tx + j, y + s.tmod 2) ∈ rightEdgeTargets tx ty s)) := by
  rw [tdiv_two s (by omega), tmod_two s (by omega)]
  simp only [mem_leftEdgeTargets tx ty s hs, mem_rightEdgeTargets tx ty s hs]
  constructor
  · intro he
    constructor <;> intro h <;> omega
  · constructor <;> intro h <;> omega

/-- C10 (amended) at a concrete input: apex `(5, 5)`, `side_length = 4`, `j = 1`,
row 5. -/
theorem triangle_edges_mirror_witness :
    ((5 : Int) - 1, (5 : Int)) ∈ leftEdgeTargets 5 5 4 ↔
      ((5 : Int) + 1, (5 : Int)) ∈ rightEdgeTargets 5 5 4 :=
  (triangle_edges_mirror 5 5 4 1 5 (by decide) (by decide)).1 (by decide)

/-- C11 (as stated, refuted). `drawTriangle(0, 1, 2)` on an all-zero 3×3 frame:
the apex `(0, 1)` lies inside the frame (`0 ≤ 0 < 3`, `0 ≤ 1 < 3`), and after the
call the apex pixel still holds 0, not red. -/
theorem drawTriangle_apex_on_column_zero :
    inFrame 3 3 0 1 ∧
      (drawTriangle ⟨3, 3, List.replicate 9 0⟩ 0 1 2).map (fun g => g.at 0 1) = some 0 ∧
      (0 : Nat) ≠ red := by
  decide

/-- C11 (amended). On a frame whose pixel array has `width * height` cells,
`drawTriangle` runs to the end for every apex and side length.  When the apex
satisfies `0 < top_x < width` and `0 < top_y < height`, the apex pixel is red
afterwards.  Otherwise no store of the call is red, and an apex that still lies
inside the frame (column 0 or row 0) keeps its old value. -/
theorem drawTriangle_apex_mark (f : Frame) (tx ty s : Int)
    (hlen : (f.pixels.length : Int) = f.width * f.height) :
    ∃ g, drawTriangle f tx ty s = some g ∧
      ((0 < tx ∧ tx < f.width ∧ 0 < ty ∧ ty < f.height) → g.at tx ty = red) ∧
      (¬ (0 < tx ∧ tx < f.width ∧ 0 < ty ∧ ty < f.height) →
        (∀ wr ∈ drawTriangleWrites f.width f.height tx ty s, wr.color ≠ red) ∧
        (inFrame f.width f.height tx ty → g.at tx ty = f.at tx ty)) := by
  obtain ⟨g, hg, -, -, hgv⟩ := drawTriangle_run f tx ty s hlen
  have hnn : inFrame f.width f.height tx ty → 0 ≤ tx + ty * f.width := by
    intro hin
    have : 0 ≤ ty * f.width := mul_nonneg hin.2.2.1 (by have := hin.1; have := hin.2.1; omega)
    have := hin.1
    omega
  refine ⟨g, hg, ?_, ?_⟩
  · intro hgd
    have hin : inFrame f.width f.height tx ty := ⟨by omega, hgd.2.1, by omega, hgd.2.2.2⟩
    rw [hgv tx ty (hnn hin), lastColor_drawTriangle_apex _ _ _ _ _ hin, if_pos hgd]
    rfl
  · intro hgd
    constructor
    · intro wr hwr hc
      by_cases hs : 1 < s
      · rcases drawTriangleWrites_cases _ _ _ _ _ hs wr hwr with
          ⟨e1, e2, -⟩ | ⟨e, -⟩ | ⟨e, -⟩ | ⟨e, -⟩
        · have hm := drawTriangleWrites_at_apex _ _ _ _ _ wr hwr e1 e2
          exact hgd (mem_markTop_fields hm).2.2.2.2
        · rw [e] at hc; exact white_ne_red hc
        · rw [e] at hc; exact white_ne_red hc
        · rw [e] at hc; exact white_ne_red hc
      · unfold drawTriangleWrites at hwr
        have hs' : s ≤ 1 := by omega
        simp only [hs', if_true, List.append_nil] at hwr
        exact hgd (mem_markTop_fields hwr).2.2.2.2
    · intro hin
      rw [hgv tx ty (hnn hin), lastColor_drawTriangle_apex _ _ _ _ _ hin, if_neg hgd]
      rfl

/-- C11 (amended) at a concrete input: `drawTriangle(1, 1, 2)` on an all-zero
3×3 frame. -/
theorem drawTriangle_apex_mark_witness :
    ∃ g, drawTriangle ⟨3, 3, List.replicate 9 0⟩ 1 1 2 = some g ∧ g.at 1 1 = red :=
  match drawTriangle_apex_mark ⟨3, 3, List.replicate 9 0⟩ 1 1 2 (by decide) with
  | ⟨g, hg, h1, _⟩ => ⟨g, hg, h1 (by decide)⟩

/-- C12. With the frame dimensions fixed at `w × h` (both `≥ 0`) and
`m = min(w, h) / 3`, the radius started from 0 is `k mod (m + 1)` after `k`
iterations of the main loop: it stays in `0 .. m`, is 0 again after `m + 1`
iterations and not earlier, and repeats with period `m + 1`. -/
theorem radius_cycle (w h : Int) (rnds : Nat → Nat → Int) (a : Anim)
    (hw : 0 ≤ w) (hh : 0 ≤ h) (ha : a.circle_radius = 0) (k : Nat) :
    (advanceN w h rnds k a).circle_radius = (k : Int) % ((min w h).tdiv 3 + 1) ∧
      0 ≤ (advanceN w h rnds k a).circle_radius ∧
      (advanceN w h rnds k a).circle_radius ≤ (min w h).tdiv 3 ∧
      (advanceN w h rnds ((min w h).tdiv 3 + 1).toNat a).circle_radius = 0 ∧
      (0 < k → (k : Int) < (min w h).tdiv 3 + 1 →
        (advanceN w h rnds k a).circle_radius ≠ 0) ∧
      (advanceN w h rnds (k + ((min w h).tdiv 3 + 1).toNat) a).circle_radius =
        (advanceN w h rnds k a).circle_radius := by
  have hm : 0 ≤ (min w h).tdiv 3 := by
    rw [Int.tdiv_eq_ediv (le_min hw hh) (by decide)]
    have := le_min hw hh
    omega
  have hcast : (((min w h).tdiv 3 + 1).toNat : Int) = (min w h).tdiv 3 + 1 := by omega
  have hf := advanceN_circle_radius w h rnds a hw hh ha
  have h0 : 0 ≤ (k : Int) % ((min w h).tdiv 3 + 1) := Int.emod_nonneg _ (by omega)
  have h1 : (k : Int) % ((min w h).tdiv 3 + 1) < (min w h).tdiv 3 + 1 :=
    Int.emod_lt_of_pos _ (by omega)
  refine ⟨hf k, ?_, ?_, ?_, ?_, ?_⟩
  · rw [hf k]; exact h0
  · rw [hf k]; omega
  · rw [hf, hcast, Int.emod_self]
  · intro hk0 hk1
    rw [hf k, Int.emod_eq_of_lt (by omega) hk1]
    omega
  · rw [hf, hf k]
    push_cast
    rw [hcast, Int.add_emod_self]

/-- C12 at a concrete input: a 6×9 frame (`m = 2`), four iterations. -/
theorem radius_cycle_witness :
    (advanceN 6 9 (fun _ _ => 0) 4 (initialAnim 6 9)).circle_radius =
      ((4 : Nat) : Int) % ((min 6 9 : Int).tdiv 3 + 1) :=
  (radius_cycle 6 9 (fun _ _ => 0) (initialAnim 6 9) (by decide) (by decide) rfl 4).1

/-- C13. With the frame dimensions fixed at `w × h` (both `≥ 0`) and
`M = min(w, h)`: one iteration takes a side length `≥ 0` into `0 .. M`.  Started
from 100, the side length is `100 + k` after `k` iterations as long as that is
`≤ M`, it is 0 for the first time after `t0` iterations, where `t0 = 1` when
`M ≤ 100` and `t0 = M - 99` otherwise, and after `t0 + j` iterations it is
`j mod (M + 1)`; after every iteration it lies in `0 .. M`. -/
theorem side_length_cycle (w h : Int) (rnds : Nat → Nat → Int) (a : Anim)
    (hw : 0 ≤ w) (hh : 0 ≤ h) (ha : a.side_length = 100) (t0 : Nat)
    (ht0 : t0 = if min w h ≤ 100 then 1 else (min w h - 99).toNat) :
    (∀ (b : Anim) (rnd : Nat → Int), 0 ≤ b.side_length →
        0 ≤ (advance w h b rnd).side_length ∧ (advance w h b rnd).side_length ≤ min w h) ∧
      (∀ k : Nat, k < t0 → (advanceN w h rnds k a).side_length = 100 + k) ∧
      (∀ k : Nat, k < t0 → (advanceN w h rnds k a).side_length ≠ 0) ∧
      (advanceN w h rnds t0 a).side_length = 0 ∧
      (∀ j : Nat, (advanceN w h rnds (t0 + j) a).side_length = (j : Int) % (min w h + 1)) ∧
      (∀ k : Nat, 1 ≤ k → 0 ≤ (advanceN w h rnds k a).side_length ∧
        (advanceN w h rnds k a).side_length ≤ min w h) := by
  have hM : 0 ≤ min w h := le_min hw hh
  have hstep : ∀ (b : Anim) (rnd : Nat → Int), 0 ≤ b.side_length →
      0 ≤ (advance w h b rnd).side_length ∧ (advance w h b rnd).side_length ≤ min w h := by
    intro b rnd hb
    rw [advance_side_length]
    split <;> omega
  have hgrow : ∀ k : Nat, k < t0 → (advanceN w h rnds k a).side_length = 100 + k := by
    intro k hk
    by_cases hc : min w h ≤ 100
    · rw [if_pos hc] at ht0
      have : k = 0 := by omega
      subst this
      rw [advanceN, ha]
      simp
    · rw [if_neg hc] at ht0
      exact advanceN_side_length_grow w h rnds a 100 ha k (by omega)
  have hzero : (advanceN w h rnds t0 a).side_length = 0 := by
    have ht : t0 = (t0 - 1) + 1 := by
      split at ht0 <;> omega
    have hprev := hgrow (t0 - 1) (by omega)
    rw [ht, advanceN, advance_side_length, hprev]
    have hge : ¬ (100 + ((t0 - 1 : Nat) : Int) + 1 ≤ min w h) := by
      split at ht0 <;> omega
    rw [if_pos (by omega)]
  have hcyc := advanceN_side_length_cycle w h rnds a hw hh t0 hzero
  refine ⟨hstep, hgrow, ?_, hzero, hcyc, ?_⟩
  · intro k hk
    rw [hgrow k hk]
    omega
  · intro k hk
    by_cases hlt : k < t0
    · rw [hgrow k hlt]
      have : ¬ min w h ≤ 100 := by
        intro hc
        rw [if_pos hc] at ht0
        omega
      rw [if_neg this] at ht0
      omega
    · obtain ⟨j, rfl⟩ : ∃ j, k = t0 + j := ⟨k - t0, by omega⟩
      rw [hcyc j]
      have h0 : 0 ≤ (j : Int) % (min w h + 1) := Int.emod_nonneg _ (by omega)
      have h1 : (j : Int) % (min w h + 1) < min w h + 1 := Int.emod_lt_of_pos _ (by omega)
      omega

/-- C13 at a concrete input: a 102×102 frame, where the side length is first 0
after `102 - 99 = 3` iterations. -/
theorem side_length_cycle_witness :
    (advanceN 102 102 (fun _ _ => 0) 3 (initialAnim 102 102)).side_length = 0 :=
  (side_length_cycle 102 102 (fun _ _ => 0) (initialAnim 102 102) (by decide) (by decide)
    rfl 3 (by decide)).2.2.2.1

/-- C14. On a frame of area `w * h > 0`, for every state of the locals and
`Rand32()` values in `0 .. 2^31 - 1`: the stores of one iteration of the main
loop are those of `drawCircle`, then those of `drawTriangle`, then exactly 300
stores of the random fill and nothing else.  The `j`-th of these 300 goes to
index `Rand32() mod (w * h)`, which lies in `[0, w * h)`, and stores the value of
the next `Rand32()` (the first two `Rand32()` values of the iteration place the
apex); no `%` of the fill has a zero divisor. -/
theorem tick_random_fill (w h : Int) (a : Anim) (rnd : Nat → Int) (hA : 0 < w * h)
    (hrnd : ∀ k, 0 ≤ rnd k ∧ rnd k ≤ 2147483647) :
    (tickWrites w h a rnd).take
        ((drawCircleWrites w h a.circle_center_x a.circle_center_y a.circle_radius).length +
          (drawTriangleWrites w h a.triangle_top_x a.triangle_top_y a.side_length).length) =
      drawCircleWrites w h a.circle_center_x a.circle_center_y a.circle_radius ++
        drawTriangleWrites w h a.triangle_top_x a.triangle_top_y a.side_length ∧
    ((tickWrites w h a rnd).drop
        ((drawCircleWrites w h a.circle_center_x a.circle_center_y a.circle_radius).length +
          (drawTriangleWrites w h a.triangle_top_x a.triangle_top_y
            a.side_length).length)).length = 300 ∧
    (tickWrites w h a rnd).length =
      (drawCircleWrites w h a.circle_center_x a.circle_center_y a.circle_radius).length +
        (drawTriangleWrites w h a.triangle_top_x a.triangle_top_y a.side_length).length +
        300 ∧
    ((tickWrites w h a rnd).drop
        ((drawCircleWrites w h a.circle_center_x a.circle_center_y a.circle_radius).length +
          (drawTriangleWrites w h a.triangle_top_x a.triangle_top_y
            a.side_length).length)).map (fun wr => (wr.idx, (wr.color : Int))) =
      (List.range 300).map (fun j : Nat =>
        ((rnd (2 + 2 * j)).tmod (w * h), rnd (2 + 2 * j + 1))) ∧
    (∀ wr ∈ (tickWrites w h a rnd).drop
        ((drawCircleWrites w h a.circle_center_x a.circle_center_y a.circle_radius).length +
          (drawTriangleWrites w h a.triangle_top_x a.triangle_top_y a.side_length).length),
      0 ≤ wr.idx ∧ wr.idx < w * h) ∧
    randomFillChecked w h rnd 300 (apexDraws w h) =
      some ((tickWrites w h a rnd).drop
        ((drawCircleWrites w h a.circle_center_x a.circle_center_y a.circle_radius).length +
          (drawTriangleWrites w h a.triangle_top_x a.triangle_top_y
            a.side_length).length)) := by
  have hsplit : tickWrites w h a rnd =
      (drawCircleWrites w h a.circle_center_x a.circle_center_y a.circle_radius ++
        drawTriangleWrites w h a.triangle_top_x a.triangle_top_y a.side_length) ++
        randomFill w h rnd 300 2 := by
    unfold tickWrites
    rw [apexDraws_of_area w h hA, List.append_assoc]
  have hlen : (drawCircleWrites w h a.circle_center_x a.circle_center_y
        a.circle_radius).length +
      (drawTriangleWrites w h a.triangle_top_x a.triangle_top_y a.side_length).length =
      (drawCircleWrites w h a.circle_center_x a.circle_center_y a.circle_radius ++
        drawTriangleWrites w h a.triangle_top_x a.triangle_top_y a.side_length).length := by
    rw [List.length_append]
  have hdrop : (tickWrites w h a rnd).drop
      ((drawCircleWrites w h a.circle_center_x a.circle_center_y a.circle_radius).length +
        (drawTriangleWrites w h a.triangle_top_x a.triangle_top_y a.side_length).length) =
      randomFill w h rnd 300 2 := by
    rw [hsplit, hlen, List.drop_left]
  obtain ⟨h1, h2, h3⟩ := randomFill_stores w h rnd 300 2 hA hrnd
  refine ⟨?_, ?_, ?_, ?_, ?_, ?_⟩
  · rw [hsplit, hlen, List.take_left]
  · rw [hdrop, h1]
  · rw [hsplit, List.length_append, h1, ← hlen]
  · rw [hdrop, h2]
  · rw [hdrop]
    exact h3
  · rw [hdrop, apexDraws_of_area w h hA]
    exact randomFillChecked_eq w h rnd 300 2

/-- C14 at a concrete input: the first iteration on a 3×2 frame with a generator
that always returns 7. -/
theorem tick_random_fill_witness :
    ((tickWrites 3 2 (initialAnim 3 2) (fun _ => 7)).drop
        ((drawCircleWrites 3 2 (initialAnim 3 2).circle_center_x
            (initialAnim 3 2).circle_center_y (initialAnim 3 2).circle_radius).length +
          (drawTriangleWrites 3 2 (initialAnim 3 2).triangle_top_x
            (initialAnim 3 2).triangle_top_y (initialAnim 3 2).side_length).length)).length =
      300 ∧
    ∀ wr ∈ (tickWrites 3 2 (initialAnim 3 2) (fun _ => 7)).drop
        ((drawCircleWrites 3 2 (initialAnim 3 2).circle_center_x
            (initialAnim 3 2).circle_center_y (initialAnim 3 2).circle_radius).length +
          (drawTriangleWrites 3 2 (initialAnim 3 2).triangle_top_x
            (initialAnim 3 2).triangle_top_y (initialAnim 3 2).side_length).length),
      0 ≤ wr.idx ∧ wr.idx < 3 * 2 :=
  have h := tick_random_fill 3 2 (initialAnim 3 2) (fun _ => 7) (by decide)
    (fun _ => ⟨(by decide : (0 : Int) ≤ 7), (by decide : (7 : Int) ≤ 2147483647)⟩)
  ⟨h.2.1, h.2.2.2.2.1⟩

/-- C15. On a frame with `width = 0` or `height = 0`, for every state of the
locals and every generator: one iteration of the main loop performs no store
(none by `drawCircle`, none by `drawTriangle`, none by the random fill), leaves
the frame as it is, evaluates no `%` with a zero divisor (the divisions of an
iteration have the constant divisors 2 and 3), and sets the apex to `(0, 0)`. -/
theorem tick_zero_area (f : Frame) (a : Anim) (rnd : Nat → Int)
    (hz : f.width = 0 ∨ f.height = 0) :
    drawCircleWrites f.width f.height a.circle_center_x a.circle_center_y
        a.circle_radius = [] ∧
      drawTriangleWrites f.width f.height a.triangle_top_x a.triangle_top_y
        a.side_length = [] ∧
      randomFill f.width f.height rnd 300 (apexDraws f.width f.height) = [] ∧
      tickWrites f.width f.height a rnd = [] ∧
      tick f a rnd = some (f, advance f.width f.height a rnd) ∧
      randomizeTop f.width f.height rnd = some (0, 0) ∧
      randomFillChecked f.width f.height rnd 300 (apexDraws f.width f.height) = some [] ∧
      (advance f.width f.height a rnd).triangle_top_x = 0 ∧
      (advance f.width f.height a rnd).triangle_top_y = 0 := by
  have h1 := drawCircleWrites_zero_area f.width f.height a.circle_center_x
    a.circle_center_y a.circle_radius hz
  have h2 := drawTriangleWrites_zero_area f.width f.height a.triangle_top_x
    a.triangle_top_y a.side_length hz
  have h3 := randomFill_zero_area f.width f.height rnd 300 (apexDraws f.width f.height) hz
  have h4 : tickWrites f.width f.height a rnd = [] := by
    unfold tickWrites
    rw [h1, h2, h3]
    rfl
  have hx : (advance f.width f.height a rnd).triangle_top_x = 0 := by
    show (if f.width = 0 ∨ f.height = 0 then ((0 : Int), (0 : Int))
      else ((rnd 0).tmod f.width, (rnd 1).tmod f.height)).1 = 0
    rw [if_pos hz]
  have hy : (advance f.width f.height a rnd).triangle_top_y = 0 := by
    show (if f.width = 0 ∨ f.height = 0 then ((0 : Int), (0 : Int))
      else ((rnd 0).tmod f.width, (rnd 1).tmod f.height)).2 = 0
    rw [if_pos hz]
  refine ⟨h1, h2, h3, h4, ?_, ?_, ?_, hx, hy⟩
  · unfold tick
    rw [h4]
    rfl
  · rw [randomizeTop_eq f.width f.height a rnd, hx, hy]
  · rw [randomFillChecked_eq, h3]

/-- C15 at a concrete input: a 0×5 frame at the start of the main loop. -/
theorem tick_zero_area_witness :
    tickWrites 0 5 (initialAnim 0 5) (fun _ => 7) = [] ∧
      randomizeTop 0 5 (fun _ => 7) = some (0, 0) :=
  have h := tick_zero_area ⟨0, 5, []⟩ (initialAnim 0 5) (fun _ => 7) (Or.inl rfl)
  ⟨h.2.2.2.1, h.2.2.2.2.2.1⟩

/-- C16. On a frame with `width > 0` and `height > 0`, for `Rand32()` values
`≥ 0`: after one iteration the apex is `(Rand32() mod width, Rand32() mod
height)`, computed without a zero divisor, and satisfies `0 ≤ top_x < width` and
`0 ≤ top_y < height`. -/
theorem advance_apex_in_frame (w h : Int) (a : Anim) (rnd : Nat → Int)
    (hw : 0 < w) (hh : 0 < h) (h0 : 0 ≤ rnd 0) (h1 : 0 ≤ rnd 1) :
    (advance w h a rnd).triangle_top_x = (rnd 0).tmod w ∧
      (advance w h a rnd).triangle_top_y = (rnd 1).tmod h ∧
      randomizeTop w h rnd = some ((rnd 0).tmod w, (rnd 1).tmod h) ∧
      (0 ≤ (advance w h a rnd).triangle_top_x ∧ (advance w h a rnd).triangle_top_x < w) ∧
      (0 ≤ (advance w h a rnd).triangle_top_y ∧ (advance w h a rnd).triangle_top_y < h) := by
  have hz : ¬ (w = 0 ∨ h = 0) := by omega
  have hx : (advance w h a rnd).triangle_top_x = (rnd 0).tmod w := by
    show (if w = 0 ∨ h = 0 then ((0 : Int), (0 : Int))
      else ((rnd 0).tmod w, (rnd 1).tmod h)).1 = _
    rw [if_neg hz]
  have hy : (advance w h a rnd).triangle_top_y = (rnd 1).tmod h := by
    show (if w = 0 ∨ h = 0 then ((0 : Int), (0 : Int))
      else ((rnd 0).tmod w, (rnd 1).tmod h)).2 = _
    rw [if_neg hz]
  refine ⟨hx, hy, ?_, ?_, ?_⟩
  · rw [randomizeTop_eq w h a rnd, hx, hy]
  · rw [hx]
    exact ⟨Int.tmod_nonneg _ h0, Int.tmod_lt_of_pos _ hw⟩
  · rw [hy]
    exact ⟨Int.tmod_nonneg _ h1, Int.tmod_lt_of_pos _ hh⟩

/-- C16 at a concrete input: a 4×3 frame, `Rand32()` values 10 and 11. -/
theorem advance_apex_in_frame_witness :
    (0 ≤ (advance 4 3 (initialAnim 4 3) (fun k => 10 + k)).triangle_top_x ∧
        (advance 4 3 (initialAnim 4 3) (fun k => 10 + k)).triangle_top_x < 4) ∧
      (0 ≤ (advance 4 3 (initialAnim 4 3) (fun k => 10 + k)).triangle_top_y ∧
        (advance 4 3 (initialAnim 4 3) (fun k => 10 + k)).triangle_top_y < 3) :=
  have h := advance_apex_in_frame 4 3 (initialAnim 4 3) (fun k => 10 + k) (by decide)
    (by decide) (by decide) (by decide)
  ⟨h.2.2.2.1, h.2.2.2.2⟩

/-- C17. For radius `≤ 1` and a centre that fails the guard (`cx ≤ 0`,
`cx ≥ width`, `cy ≤ 0` or `cy ≥ height`), `drawCircle` performs no store and
returns the frame unchanged. -/
theorem drawCircle_small_radius_guard (f : Frame) (cx cy r : Int) (hr : r ≤ 1)
    (hc : cx ≤ 0 ∨ cx ≥ f.width ∨ cy ≤ 0 ∨ cy ≥ f.height) :
    drawCircleWrites f.width f.height cx cy r = [] ∧ drawCircle f cx cy r = some f := by
  have hw : drawCircleWrites f.width f.height cx cy r = [] := by
    unfold drawCircleWrites markCenter
    have hg : ¬ (cx > 0 ∧ cx < f.width ∧ cy > 0 ∧ cy < f.height) := by omega
    rw [if_neg hg, if_pos hr]
    rfl
  refine ⟨hw, ?_⟩
  unfold drawCircle
  rw [hw]
  rfl

/-- C17 at a concrete input: centre `(0, 2)` on column 0 of a 4×4 frame, radius 1. -/
theorem drawCircle_small_radius_guard_witness :
    drawCircleWrites 4 4 0 2 1 = [] ∧
      drawCircle ⟨4, 4, List.replicate 16 0⟩ 0 2 1 = some ⟨4, 4, List.replicate 16 0⟩ :=
  drawCircle_small_radius_guard ⟨4, 4, List.replicate 16 0⟩ 0 2 1 (by decide) (by decide)

/-- C19. On a frame with `width, height ≥ 0` whose pixel array has
`width * height` cells, for every centre and radius: `drawCircle` performs a
store outside `[0, width * height)` iff `0 < cx < width`, `0 < cy` and
`cy = height - 1` (then the store for the neighbour below the centre is one),
and exactly then the run does not reach its end.  With the centre
`(width / 2, height / 2)` of the main loop this happens iff `height = 2` and
`width ≥ 2`. -/
theorem drawCircle_out_of_range_iff (f : Frame) (cx cy r : Int)
    (hw : 0 ≤ f.width) (hh : 0 ≤ f.height)
    (hlen : (f.pixels.length : Int) = f.width * f.height) :
    ((∃ wr ∈ drawCircleWrites f.width f.height cx cy r,
        ¬ (0 ≤ wr.idx ∧ wr.idx < f.width * f.height)) ↔
      (0 < cx ∧ cx < f.width ∧ 0 < cy ∧ cy = f.height - 1)) ∧
    ((0 < cx ∧ cx < f.width ∧ 0 < cy ∧ cy = f.height - 1) →
      (⟨cx, cy + 1, cx + (cy + 1) * f.width, green⟩ : Write) ∈
          drawCircleWrites f.width f.height cx cy r ∧
        f.width * f.height ≤ cx + (cy + 1) * f.width) ∧
    (drawCircle f cx cy r = none ↔
      (0 < cx ∧ cx < f.width ∧ 0 < cy ∧ cy = f.height - 1)) ∧
    ((∃ wr ∈ drawCircleWrites f.width f.height (f.width.tdiv 2) (f.height.tdiv 2) r,
        ¬ (0 ≤ wr.idx ∧ wr.idx < f.width * f.height)) ↔
      (f.height = 2 ∧ 2 ≤ f.width)) := by
  have hiff := drawCircleWrites_out_of_range_iff f.width f.height cx cy r
  refine ⟨hiff, ?_, ?_, ?_⟩
  · rintro ⟨h1, h2, h3, h4⟩
    constructor
    · unfold drawCircleWrites
      apply List.mem_append_left
      unfold markCenter
      have hg : cx > 0 ∧ cx < f.width ∧ cy > 0 ∧ cy < f.height := ⟨h1, h2, h3, by omega⟩
      rw [if_pos hg]
      simp
    · have e : (cy + 1) * f.width = f.width * f.height := by rw [h4]; ring
      omega
  · rw [← hiff]
    unfold drawCircle
    rw [Option.map_eq_none', runWrites_eq_none_iff]
    constructor
    · rintro ⟨wr, hwr, hbad⟩
      exact ⟨wr, hwr, by rw [← hlen]; exact hbad⟩
    · rintro ⟨wr, hwr, hbad⟩
      exact ⟨wr, hwr, by rw [hlen]; exact hbad⟩
  · rw [drawCircleWrites_out_of_range_iff, tdiv_two _ hw, tdiv_two _ hh]
    constructor
    · rintro ⟨h1, h2, h3, h4⟩
      omega
    · rintro ⟨h1, h2⟩
      omega

/-- C19 at a concrete input: centre `(1, 1)` of an all-zero 2×2 frame, radius 0. -/
theorem drawCircle_out_of_range_iff_witness :
    drawCircle ⟨2, 2, [0, 0, 0, 0]⟩ 1 1 0 = none ↔
      ((0 : Int) < 1 ∧ (1 : Int) < 2 ∧ (0 : Int) < 1 ∧ (1 : Int) = 2 - 1) :=
  (drawCircle_out_of_range_iff ⟨2, 2, [0, 0, 0, 0]⟩ 1 1 0 (by decide) (by decide)
    (by decide)).2.2.1

/-- C20. For `width, height ≥ 1` and `0 ≤ r ≤ min(width, height) / 3`, the circle
of radius `r` centred at `(width / 2, height / 2)` lies inside the frame: for
every column offset `x ∈ [-r, r]` and `y = csqrt (r² - x²)`,
`0 ≤ width/2 + x < width`, `0 ≤ height/2 - y` and `height/2 + y < height`; the
arguments `r² - x²`, `r² - (x+1)²` (for `x < 0`) and `r² - (x-1)²` (for `x > 0`)
of the square roots are `≥ 0`; and for `r > 1` the white store of column `x` is
performed in both passes. -/
theorem loop_circle_fits (w h r x : Int) (hw : 1 ≤ w) (hh : 1 ≤ h) (hr0 : 0 ≤ r)
    (hr : r ≤ (min w h).tdiv 3) (hx : -r ≤ x ∧ x ≤ r) :
    (0 ≤ w.tdiv 2 - r ∧ w.tdiv 2 + r < w ∧ 0 ≤ h.tdiv 2 - r ∧ h.tdiv 2 + r < h) ∧
      (0 ≤ w.tdiv 2 + x ∧ w.tdiv 2 + x < w) ∧
      0 ≤ h.tdiv 2 - csqrt (r * r - x * x) ∧
      h.tdiv 2 + csqrt (r * r - x * x) < h ∧
      0 ≤ r * r - x * x ∧
      (x < 0 → 0 ≤ r * r - (x + 1) * (x + 1)) ∧
      (0 < x → 0 ≤ r * r - (x - 1) * (x - 1)) ∧
      (1 < r →
        (⟨w.tdiv 2 + x, h.tdiv 2 + csqrt (r * r - x * x),
            (w.tdiv 2 + x) + (h.tdiv 2 + csqrt (r * r - x * x)) * w, white⟩ : Write) ∈
          upperPass w h (w.tdiv 2) (h.tdiv 2) r ∧
        (⟨w.tdiv 2 + x, h.tdiv 2 + -csqrt (r * r - x * x),
            (w.tdiv 2 + x) + (h.tdiv 2 + -csqrt (r * r - x * x)) * w, white⟩ : Write) ∈
          lowerPass w h (w.tdiv 2) (h.tdiv 2) r) := by
  have hmin : (min w h).tdiv 3 = min w h / 3 :=
    Int.tdiv_eq_ediv (le_min (by omega) (by omega)) (by decide)
  have hrw : r ≤ w / 3 := by
    have : min w h ≤ w := min_le_left w h
    rw [hmin] at hr
    omega
  have hrh : r ≤ h / 3 := by
    have : min w h ≤ h := min_le_right w h
    rw [hmin] at hr
    omega
  have hfit : 0 ≤ w.tdiv 2 - r ∧ w.tdiv 2 + r < w ∧ 0 ≤ h.tdiv 2 - r ∧ h.tdiv 2 + r < h := by
    rw [tdiv_two w (by omega), tdiv_two h (by omega)]
    omega
  have hy0 := csqrt_nonneg (r * r - x * x)
  have hy1 := csqrt_le_radius r x hr0 hx
  refine ⟨hfit, by omega, by omega, by omega, ?_, ?_, ?_, ?_⟩
  · nlinarith [mul_nonneg (show 0 ≤ r - x by omega) (show 0 ≤ r + x by omega)]
  · intro hneg
    nlinarith [mul_nonneg (show 0 ≤ r - (x + 1) by omega) (show 0 ≤ r + (x + 1) by omega)]
  · intro hpos
    nlinarith [mul_nonneg (show 0 ≤ r - (x - 1) by omega) (show 0 ≤ r + (x - 1) by omega)]
  · intro hr1
    obtain ⟨hU, hL⟩ := perimeter_inFrame w h (w.tdiv 2) (h.tdiv 2) r x hr1 hfit hx
    constructor
    · unfold upperPass
      rw [mem_forUp_range]
      refine ⟨x, hx.1, hx.2, ?_⟩
      rw [mem_upperColumn]; left
      rw [mem_perimeter]
      exact ⟨hU, Or.inl rfl⟩
    · unfold lowerPass
      rw [mem_forUp_range]
      refine ⟨x, hx.1, hx.2, ?_⟩
      rw [mem_lowerColumn]; left
      rw [mem_perimeter]
      exact ⟨hL, Or.inl rfl⟩

/-- C20 at a concrete input: a 9×7 frame (`min / 3 = 2`), radius 2, column
offset 1. -/
theorem loop_circle_fits_witness :
    (0 ≤ (9 : Int).tdiv 2 + 1 ∧ (9 : Int).tdiv 2 + 1 < 9) ∧
      0 ≤ (7 : Int).tdiv 2 - csqrt (2 * 2 - 1 * 1) ∧
      (7 : Int).tdiv 2 + csqrt (2 * 2 - 1 * 1) < 7 :=
  have h := loop_circle_fits 9 7 2 1 (by decide) (by decide) (by decide) (by decide)
    (by decide)
  ⟨h.2.1, h.2.2.1, h.2.2.2.1⟩

/-- C21. In the variant `RAND_MAX == 32767`, for `rand()` values `a`, `b`, `c` in
`0 .. 32767`: no shift or sum of `Rand32()` overflows, its value is
`a * 2^16 + b * 2 + c mod 2` and lies in `0 .. INT_MAX = 2^31 - 1`, so
`Rand32() % n` lies in `[0, n)` for every `n > 0`; the maximum `INT_MAX` is
reached at `(32767, 32767, 1)`; every value of `0 .. 2^31 - 1` is the value of
`Rand32()` for some `a`, `b`, `c` in `0 .. 32767`; and no negative value (top bit
set) is. -/
theorem Rand32_range (a b c : Nat) (ha : a ≤ RAND_MAX) (hb : b ≤ RAND_MAX)
    (_hc : c ≤ RAND_MAX) :
    (∃ v : Int, Rand32 a b c = some v ∧
      v = (a : Int) * 65536 + (b : Int) * 2 + ((c % 2 : Nat) : Int) ∧
      0 ≤ v ∧ v ≤ INT_MAX ∧
      ∀ n : Int, 0 < n → 0 ≤ v.tmod n ∧ v.tmod n < n) ∧
    INT_MAX = 2 ^ 31 - 1 ∧
    Rand32 32767 32767 1 = some INT_MAX ∧
    (∀ v : Int, 0 ≤ v → v ≤ 2 ^ 31 - 1 →
      ∃ a' b' c' : Nat, a' ≤ RAND_MAX ∧ b' ≤ RAND_MAX ∧ c' ≤ RAND_MAX ∧
        Rand32 a' b' c' = some v) ∧
    (∀ (a' b' c' : Nat) (v : Int), a' ≤ RAND_MAX → b' ≤ RAND_MAX → c' ≤ RAND_MAX →
      Rand32 a' b' c' = some v → ¬ v < 0 ∧ v < 2 ^ 31) := by
  have hrange : ∀ (a' b' c' : Nat), a' ≤ RAND_MAX → b' ≤ RAND_MAX →
      0 ≤ (a' : Int) * 65536 + (b' : Int) * 2 + ((c' % 2 : Nat) : Int) ∧
        (a' : Int) * 65536 + (b' : Int) * 2 + ((c' % 2 : Nat) : Int) ≤ 2147483647 := by
    intro a' b' c' ha' hb'
    unfold RAND_MAX at ha' hb'
    have : c' % 2 < 2 := Nat.mod_lt _ (by decide)
    omega
  refine ⟨?_, by decide, by decide, ?_, ?_⟩
  · obtain ⟨h0, h1⟩ := hrange a b c ha hb
    refine ⟨_, Rand32_eq a b c ha hb, rfl, h0, h1, ?_⟩
    intro n hn
    exact ⟨Int.tmod_nonneg _ h0, Int.tmod_lt_of_pos _ hn⟩
  · intro v h0 h1
    have h1' : v ≤ 2147483647 := by
      have : (2 : Int) ^ 31 - 1 = 2147483647 := by norm_num
      omega
    refine ⟨(v / 65536).toNat, ((v % 65536) / 2).toNat, (v % 2).toNat, ?_, ?_, ?_, ?_⟩
    · unfold RAND_MAX; omega
    · unfold RAND_MAX; omega
    · unfold RAND_MAX; omega
    · rw [Rand32_eq _ _ _ (by unfold RAND_MAX; omega) (by unfold RAND_MAX; omega)]
      congr 1
      omega
  · intro a' b' c' v ha' hb' _ hv
    rw [Rand32_eq a' b' c' ha' hb'] at hv
    obtain ⟨h0, h1⟩ := hrange a' b' c' ha' hb'
    have hv' : (a' : Int) * 65536 + (b' : Int) * 2 + ((c' % 2 : Nat) : Int) = v :=
      Option.some.inj hv
    have : (2 : Int) ^ 31 = 2147483648 := by norm_num
    omega

/-- C21 at a concrete input: `rand()` values 1, 2, 3. -/
theorem Rand32_range_witness :
    ∃ v : Int, Rand32 1 2 3 = some v ∧
      v = ((1 : Nat) : Int) * 65536 + ((2 : Nat) : Int) * 2 + ((3 % 2 : Nat) : Int) ∧
      0 ≤ v ∧ v ≤ INT_MAX ∧
      ∀ n : Int, 0 < n → 0 ≤ v.tmod n ∧ v.tmod n < n :=
  (Rand32_range 1 2 3 (by decide) (by decide) (by decide)).1

end PixelDrawer
